import Mathlib

/-!
# Verification of the omniperf perfmon scheduling / recombination core

Shallow embedding of `src/utils/perfagg.py`:

* `perfmon_coalesce` — parses counter-specification lines, buckets counters
  per IP block (with per-channel sub-buckets for TCC), deduplicates,
  extracts level-counter lines, and sorts per-channel buckets.
* `perfmon_emit` — computes the number of collection passes and the slice
  of every bucket assigned to each pass.
* `join_prof` — joins per-pass result tables on a kernel-invocation key,
  warns on differing invariant columns, drops duplicate/unmergeable
  columns, asserts kernel-name consistency, and averages timestamps.

Python strings are modelled as Lean `String`s and all character-level
operations (comment stripping, whitespace splitting, upper-casing,
lexicographic comparison) are implemented over `String.data` by structural
recursion so that they evaluate inside the kernel.  Python floats produced
by `len(bucket) / capacity` are modelled as exact fractions of naturals
(`Frac`); `math.ceil` becomes exact ceiling division.  Fallible Python
operations (KeyError / IndexError / ValueError / assert / sys.exit) are
modelled with `Option`: `none` means the Python code raises.
-/

namespace Perfagg

/-! ## Small helpers -/

/-- Ceiling division on naturals: `cdiv a b = ⌈a / b⌉` for `b > 0`. -/
def cdiv (a b : Nat) : Nat := (a + b - 1) / b

/-- `listIsPrefix p l`: `p` is a prefix of `l` (executable). -/
def listIsPrefix : List Char → List Char → Bool
  | [], _ => true
  | _ :: _, [] => false
  | a :: as, b :: bs => a = b && listIsPrefix as bs

/-- `containsSub pat l`: the pattern `pat` occurs as a contiguous
substring of `l` (Python's `pat in s`). -/
def containsSub (pat : List Char) : List Char → Bool
  | [] => pat.isEmpty
  | c :: t => listIsPrefix pat (c :: t) || containsSub pat t

/-- Python's `pat in s` on strings. -/
def strContains (s pat : String) : Bool := containsSub pat.data s.data

/-- Lexicographic comparison of character lists by code point, the order
Python uses to compare `str` values. -/
def charListLe : List Char → List Char → Bool
  | [], _ => true
  | _ :: _, [] => false
  | a :: as, b :: bs =>
    if a.toNat < b.toNat then true
    else if b.toNat < a.toNat then false
    else charListLe as bs

/-- Python `<=` on strings (code-point lexicographic). -/
def strLe (a b : String) : Bool := charListLe a.data b.data

/-- Insert `x` into a list in front of the first element it is `strLe`-below
(helper for the stable sort below). -/
def insortStr (x : String) : List String → List String
  | [] => [x]
  | y :: ys => if strLe x y then x :: y :: ys else y :: insortStr x ys

/-- Insertion sort by `strLe`.  `list.sort()` in Python sorts strings
ascending by code point; since that order is total and antisymmetric the
sorted result is unique, so insertion sort computes exactly it. -/
def isortStr : List String → List String
  | [] => []
  | x :: xs => insortStr x (isortStr xs)

/-- `if counter not in bucket: bucket.append(counter)`. -/
def appendUnique (counter : String) (v : List String) : List String :=
  if counter ∈ v then v else v ++ [counter]

/-- Left fold that appends each element not already present
(first-occurrence deduplication, the order Python's
`if c not in bucket: bucket.append(c)` produces). -/
def dedupFrom (acc : List String) : List String → List String
  | [] => acc
  | c :: cs => dedupFrom (appendUnique c acc) cs

/-- First-occurrence deduplication of a list. -/
def dedupFirst (l : List String) : List String := dedupFrom [] l

/-- Map a fallible function over a list, failing if any element fails
(structural-recursion equivalent of `List.mapM` in `Option`). -/
def mapOpt {α β : Type} (f : α → Option β) : List α → Option (List β)
  | [] => some []
  | a :: l => (f a).bind (fun b => (mapOpt f l).map (fun r => b :: r))

/-- Python list indexing, including negative indices; `none` models
`IndexError`. -/
def pyGet (l : List String) (i : Int) : Option String :=
  let j : Int := if i < 0 then (l.length : Int) + i else i
  if 0 ≤ j then l[j.toNat]? else none

/-! ## Architecture profiles (`perfmon_config`) -/

/-- The per-IP-block simultaneous-counter capacities and the TCC channel
count, per SoC (`perfmon_config` in the source). -/
def perfmon_config : List (String × List (String × Nat)) :=
  [("vega10",
    [("SQ", 8), ("TA", 2), ("TD", 2), ("TCP", 4), ("TCC", 4), ("CPC", 2),
     ("CPF", 2), ("SPI", 2), ("GRBM", 2), ("GDS", 4), ("TCC_channels", 16)]),
   ("mi50",
    [("SQ", 8), ("TA", 2), ("TD", 2), ("TCP", 4), ("TCC", 4), ("CPC", 2),
     ("CPF", 2), ("SPI", 2), ("GRBM", 2), ("GDS", 4), ("TCC_channels", 16)]),
   ("mi100",
    [("SQ", 8), ("TA", 2), ("TD", 2), ("TCP", 4), ("TCC", 4), ("CPC", 2),
     ("CPF", 2), ("SPI", 2), ("GRBM", 2), ("GDS", 4), ("TCC_channels", 32)]),
   ("mi200",
    [("SQ", 8), ("TA", 2), ("TD", 2), ("TCP", 4), ("TCC", 4), ("CPC", 2),
     ("CPF", 2), ("SPI", 2), ("GRBM", 2), ("GDS", 4), ("TCC_channels", 32)])]

/-- `perfmon_config[soc]`; `none` models a Python `KeyError`. -/
def lookupConfig (soc : String) : Option (List (String × Nat)) :=
  List.lookup soc perfmon_config

/-! ## Line parsing (counter parser) -/

/-- Python `line.split("#")[0].strip()`: text after the first `#` is
dropped and surrounding whitespace removed. -/
def stripComment (line : String) : String :=
  String.mk
    ((((line.data.takeWhile (fun c => c ≠ '#')).dropWhile
        Char.isWhitespace).reverse.dropWhile Char.isWhitespace).reverse)

/-- `re.match(r"^pmc:(.*)", stext)`: if the (already stripped) line starts
with the counter-list marker `pmc:`, return the text after the marker
(group 1), else `none`. -/
def pmcRest (stext : String) : Option String :=
  if listIsPrefix "pmc:".data stext.data then
    some (String.mk (stext.data.drop 4))
  else
    none

/-- Auxiliary for whitespace splitting: `cur` is the reversed current run
of non-whitespace characters. -/
def splitWsAux : List Char → List Char → List (List Char)
  | [], cur => if cur.isEmpty then [] else [cur.reverse]
  | c :: cs, cur =>
    if c.isWhitespace then
      if cur.isEmpty then splitWsAux cs [] else cur.reverse :: splitWsAux cs []
    else
      splitWsAux cs (c :: cur)

/-- Python `s.split()` with no separator: split on runs of whitespace,
discarding empty fields. -/
def pySplit (s : String) : List String := (splitWsAux s.data []).map String.mk

/-- `counter.split(sep="_")[0].upper()`: the token's prefix up to the
first underscore, upper-cased (ASCII, as all block prefixes are). -/
def blockToken (counter : String) : String :=
  String.mk ((counter.data.takeWhile (fun c => c ≠ '_')).map Char.toUpper)

/-- Owning IP block of a counter token; the legacy `SQC` prefix is folded
into `SQ`. -/
def ipBlockOf (counter : String) : String :=
  let b := blockToken counter
  if b = "SQC" then "SQ" else b

/-- If the character list starts with `[`, one or more digits, `]`, return
the digit group. -/
def bracketAt : List Char → Option String
  | '[' :: rest =>
    let ds := rest.takeWhile Char.isDigit
    match rest.dropWhile Char.isDigit with
    | ']' :: _ => if ds.isEmpty then none else some (String.mk ds)
    | _ => none
  | _ => none

/-- Scan for the right-most position `≥ 1` at which `[digits]` occurs.
This is what `re.match(r"[\s\S]+\[(\d+)\]", counter)` captures: the greedy
`[\s\S]+` (at least one character) pushes the bracket group as far right
as possible, and the match need not cover the whole token. -/
def chanSearch : List Char → Option String
  | [] => none
  | _ :: cs =>
    match chanSearch cs with
    | some d => some d
    | none => bracketAt cs

/-- TCC channel index of a counter token (as the digit string captured by
the regex), or `none` for an aggregated TCC counter. -/
def tccChannel (counter : String) : Option String := chanSearch counter.data

/-- The high-resolution accumulator token. -/
def accumToken : String := "SQ_ACCUM_PREV_HIRES"

/-- `counters[counters.index("SQ_ACCUM_PREV_HIRES") - 1]`: the level
counter name, i.e. the token preceding the first occurrence of the
accumulator token — via Python indexing, so index `-1` (accumulator
first) selects the *last* token of the line. -/
def levelNameOf (counters : List String) : Option String :=
  pyGet counters ((List.indexOf accumToken counters : Int) - 1)

/-! ## The bucket structure and the coalescer -/

/-- The bucket structure built by `perfmon_coalesce` (`pmc_list` in the
source).  The source keeps one Python dict whose keys are the nine
ordinary blocks plus `"TCC"` (aggregated TCC bucket) and `"TCC2"` (a
nested per-channel dict); here the ordinary blocks are an association
list in the source's iteration order (minus `TCC`/`TCC2`, which the
emitter skips in its ordinary-block loop), and `TCC2` is an association
list keyed by the channel digit string, in insertion order. -/
structure PmcList where
  ordinary : List (String × List String)
  tcc : List String
  tcc2 : List (String × List String)
deriving DecidableEq

/-- The ordinary block keys, in the dict order the emitter iterates
(`SQ, GRBM, TCP, TA, TD, [TCC skipped], SPI, CPC, CPF, GDS`). -/
def ordinaryBlockNames : List String :=
  ["SQ", "GRBM", "TCP", "TA", "TD", "SPI", "CPC", "CPF", "GDS"]

/-- Nat to decimal digit string (for dict keys `str(ch)`). -/
def natToStr (n : Nat) : String := toString n

/-- The initial `pmc_list`: every ordinary bucket empty, aggregated TCC
empty, and one empty per-channel bucket for each `ch in
range(TCC_channels)`. -/
def initPmcList (channels : Nat) : PmcList :=
  { ordinary := ordinaryBlockNames.map (fun b => (b, []))
    tcc := []
    tcc2 := (List.range channels).map (fun ch => (natToStr ch, [])) }

/-- Apply `f` to the value of key `k` in an association list; `none`
models a Python `KeyError` (key absent). -/
def updateAssoc (k : String) (f : List String → List String) :
    List (String × List String) → Option (List (String × List String))
  | [] => none
  | (k', v) :: rest =>
    if k' = k then some ((k', f v) :: rest)
    else (updateAssoc k f rest).map (fun r => (k', v) :: r)

/-- Store one counter token in its bucket: ordinary blocks by name
(KeyError → `none` for an unknown block), TCC split into the aggregated
bucket (no bracketed channel) or the per-channel dict, where an unseen
channel key is created holding just this counter. -/
def insertCounter (pl : PmcList) (counter : String) : Option PmcList :=
  let ipb := ipBlockOf counter
  if ipb ≠ "TCC" then
    (updateAssoc ipb (appendUnique counter) pl.ordinary).map
      (fun o => { pl with ordinary := o })
  else
    match tccChannel counter with
    | none => some { pl with tcc := appendUnique counter pl.tcc }
    | some ch =>
      match updateAssoc ch (appendUnique counter) pl.tcc2 with
      | some t2 => some { pl with tcc2 := t2 }
      | none => some { pl with tcc2 := pl.tcc2 ++ [(ch, [counter])] }

/-- Coalescer state: the buckets plus the level-counter specifications
written out as separate files (file-name stem = level counter name,
content = the counter line; the `gpu:`/`range:`/`kernel:` directive lines
the source also writes are fixed text and not modelled). -/
structure CoalesceState where
  pmc : PmcList
  levelFiles : List (String × String)
deriving DecidableEq

/-- Process one line of a counter specification file: strip comments and
whitespace; skip empty lines and lines without the `pmc:` marker; divert
a line containing the accumulator token, whole, into its own
level-counter file; otherwise insert every token into its bucket. -/
def processLine (st : CoalesceState) (line : String) : Option CoalesceState :=
  let stext := stripComment line
  if stext = "" then some st
  else
    match pmcRest stext with
    | none => some st
    | some rest =>
      let counters := pySplit rest
      if accumToken ∈ counters then
        match levelNameOf counters with
        | some lc => some { st with levelFiles := st.levelFiles ++ [(lc, stext)] }
        | none => none
      else
        (List.foldlM insertCounter st.pmc counters).map
          (fun pmc => { st with pmc := pmc })

/-- Sort the per-channel bucket of every canonical channel key
(`for ch in range(TCC_channels): pmc_list["TCC2"][str(ch)].sort()`).
Channel keys outside `range(TCC_channels)` are *not* sorted. -/
def sortChannels (channels : Nat) (t2 : List (String × List String)) :
    Option (List (String × List String)) :=
  List.foldlM (fun acc ch => updateAssoc (natToStr ch) isortStr acc)
    t2 (List.range channels)

/-- `perfmon_coalesce`: ingest every line of every source file into the
bucket structure, then sort each canonical per-channel TCC bucket.  Each
source file is given as its list of lines (file IO is out of scope). -/
def perfmon_coalesce (pmc_files_list : List (List String)) (soc : String) :
    Option CoalesceState := do
  let cfg ← lookupConfig soc
  let channels ← List.lookup "TCC_channels" cfg
  let st ← List.foldlM (fun st lines => List.foldlM processLine st lines)
    (CoalesceState.mk (initPmcList channels) []) pmc_files_list
  let t2 ← sortChannels channels st.pmc.tcc2
  return { st with pmc := { st.pmc with tcc2 := t2 } }

/-! ## The pass scheduler (`perfmon_emit`)

The source computes `len(bucket) / capacity` with Python float division,
takes `max` over the resulting floats and applies `math.ceil`.  Floats are
modelled as exact fractions of naturals; for the magnitudes involved
(bucket sizes and capacities) float and exact arithmetic agree. -/

/-- An exact nonnegative fraction `num / den`, modelling a Python float
produced by dividing two nonnegative integers. -/
structure Frac where
  num : Nat
  den : Nat
deriving DecidableEq

/-- Value comparison `a < b` of fractions with positive denominators
(cross multiplication). -/
def fracLt (a b : Frac) : Bool := a.num * b.den < b.num * a.den

/-- Python `max` over a list of floats: `none` models the `ValueError` on
an empty list; ties keep the earlier element (irrelevant up to value). -/
def pyMaxFrac : List Frac → Option Frac
  | [] => none
  | x :: xs => some (xs.foldl (fun m y => if fracLt m y then y else m) x)

/-- `math.ceil` of a nonnegative fraction. -/
def fracCeil (a : Frac) : Nat := cdiv a.num a.den

/-- One scheduled pass: for every ordinary block (in dict order) the
slice of its bucket requested in this pass, the slice of the aggregated
TCC bucket, and — on passes whose aggregated slice is exhausted — the
slice of every per-channel TCC bucket at the channel-pass offset.  The
source emits only the concatenated text line; the slices are kept here so
that per-block properties can be stated, and the emitted token line is
recovered by `Pass.line`. -/
structure Pass where
  ordinary : List (String × List String)
  tcc : List String
  tccCh : List (String × List String)
deriving DecidableEq, Repr

/-- The token content of the emitted `pmc:` line of a pass: ordinary
slices in block order, then the TCC contribution (aggregated slice, or the
per-channel slices once the aggregated bucket is exhausted). -/
def Pass.line (p : Pass) : List String :=
  (p.ordinary.map Prod.snd).flatten ++ p.tcc ++ (p.tccCh.map Prod.snd).flatten

/-- `bucket[i*N : i*N + N]`. -/
def slice (l : List String) (i N : Nat) : List String := (l.drop (i * N)).take N

/-- The emission loop: one `Pass` per iteration; `t2i` is the source's
`tcc2_index`, advanced exactly on iterations whose aggregated TCC slice is
empty, which are the iterations on which the per-channel buckets
contribute. -/
def emitLoop (ordCaps : List (String × List String × Nat)) (tcc : List String)
    (tccCap : Nat) (chBuckets : List (String × List String)) :
    Nat → Nat → Nat → List Pass
  | _, _, 0 => []
  | iter, t2i, fuel + 1 =>
    let ordSlices := ordCaps.map (fun e => (e.1, slice e.2.1 iter e.2.2))
    let tccSlice := slice tcc iter tccCap
    if tccSlice.isEmpty then
      Pass.mk ordSlices tccSlice
          (chBuckets.map (fun e => (e.1, slice e.2 t2i tccCap))) ::
        emitLoop ordCaps tcc tccCap chBuckets (iter + 1) (t2i + 1) fuel
    else
      Pass.mk ordSlices tccSlice [] ::
        emitLoop ordCaps tcc tccCap chBuckets (iter + 1) t2i fuel

/-- `perfmon_emit`: compute the pass count
`max(ceil(max(pmc_cnt)), ceil(tcc_cnt) + ceil(max(tcc2_cnt)))` and emit
one pass per iteration.  `none` models the KeyErrors (unknown SoC, a
bucket block name missing from the profile, a missing channel key) and
the ValueError of `max` on an empty sequence. -/
def perfmon_emit (pl : PmcList) (soc : String) : Option (List Pass) := do
  let cfg ← lookupConfig soc
  let ordCaps ← mapOpt
    (fun e => (List.lookup e.1 cfg).map (fun c => (e.1, e.2, c))) pl.ordinary
  let pmc_cnt := ordCaps.map (fun e => Frac.mk e.2.1.length e.2.2)
  let tccCap ← List.lookup "TCC" cfg
  let channels ← List.lookup "TCC_channels" cfg
  let chBuckets ← mapOpt
    (fun ch => (List.lookup (natToStr ch) pl.tcc2).map
      (fun b => (natToStr ch, b))) (List.range channels)
  let tcc_cnt := Frac.mk pl.tcc.length tccCap
  let tcc2_cnt := chBuckets.map (fun e => Frac.mk e.2.length tccCap)
  let mo ← pyMaxFrac pmc_cnt
  let m2 ← pyMaxFrac tcc2_cnt
  let niter := Nat.max (fracCeil mo) (fracCeil tcc_cnt + fracCeil m2)
  return emitLoop ordCaps pl.tcc tccCap chBuckets 0 0 niter

/-- Maximum of a list of naturals (0 for the empty list). -/
def maxNat (l : List Nat) : Nat := l.foldr Nat.max 0

/-- The bucket of canonical channel `ch` (empty if absent). -/
def chanBucket (pl : PmcList) (ch : Nat) : List String :=
  (List.lookup (natToStr ch) pl.tcc2).getD []

/-- Modelled from the spec's words (for comparison with the code's pass
count): "for every ordinary block, the number of passes it independently
requires is `ceil(bucket_size / capacity)`"; for the channel-addressable
block "the contribution to total passes is `ceil(aggregated_size /
capacity) + ceil(max_channel_size / capacity)`"; "the overall pass count
N is the maximum, across all blocks, of each block's independent
requirement". -/
def specNumPasses (pl : PmcList) (cfg : List (String × Nat))
    (tccCap channels : Nat) : Nat :=
  Nat.max
    (maxNat (pl.ordinary.map
      (fun e => cdiv e.2.length ((List.lookup e.1 cfg).getD 0))))
    (cdiv pl.tcc.length tccCap +
      maxNat ((List.range channels).map
        (fun ch => cdiv (chanBucket pl ch).length tccCap)))

/-- The slice of ordinary block `blk` requested by a pass. -/
def ordSliceOf (p : Pass) (blk : String) : List String :=
  ((p.ordinary.filter (fun e => e.1 = blk)).map Prod.snd).flatten

/-- The slice of TCC channel `ch` requested by a pass. -/
def chSliceOf (p : Pass) (ch : String) : List String :=
  ((p.tccCh.filter (fun e => e.1 = ch)).map Prod.snd).flatten

/-! ## The recombiner (`join_prof`)

Per-pass result tables are modelled row-wise: a row is an ordered
association list from column name to cell value, a table is a list of
rows.  Cells are strings or exact numbers; the float mean of timestamps
is kept as an exact fraction (`Val.frac`).  Only the rows of a frame are
modelled; the column list of a frame is read off its first row (an empty
frame with named columns, which pandas can represent, has no
counterpart — the claims below are about nonempty joins).  `none` models
the aborts of the Python code: `sys.exit` on an unknown join type, the
`IndexError` of `test_df_column_equality` on an empty column family, the
`AttributeError` when no input files exist, pandas raising on a
non-string kernel name, and the kernel-name `assert`. -/

/-- A cell value. -/
inductive Val where
  | str (s : String)
  | num (n : Int)
  | frac (n : Int) (d : Nat)
deriving DecidableEq, Repr

/-- A row: column name / value pairs in column order. -/
abbrev Row := List (String × Val)

/-- A table: list of rows. -/
abbrev Table := List Row

/-- `row[col]`; `none` models a missing column (KeyError). -/
def rowGet (r : Row) (c : String) : Option Val := List.lookup c r

/-- The column list of a frame, read off its first row. -/
def tableCols (t : Table) : List String := (t.headD []).map Prod.fst

/-- Python `str(n)` for an integer. -/
def intToStr (n : Int) : String :=
  match n with
  | .ofNat m => natToStr m
  | .negSucc m => "-" ++ natToStr (m + 1)

/-- A cell used in string concatenation (`_df.KernelName + " - "`):
pandas raises unless it is a string. -/
def strCell : Val → Option String
  | .str s => some s
  | _ => none

/-- `astype(str)` of a cell. -/
def valText : Val → String
  | .str s => s
  | .num n => intToStr n
  | .frac n d => intToStr n ++ "/" ++ natToStr d

/-- `groupby(...).cumcount()`: the running per-group occurrence index;
`seen` is the list of already-processed group keys. -/
def cumcountAux {α : Type} [DecidableEq α] (seen : List α) :
    List α → List Nat
  | [] => []
  | k :: ks => (seen.filter (fun x => x = k)).length ::
      cumcountAux (seen ++ [k]) ks

/-- Key computation for `--join-type kernel`:
`key = KernelName + " - " + cumcount`. -/
def addKeysKernel (t : Table) : Option Table := do
  let names ← t.mapM (fun r => rowGet r "KernelName")
  let snames ← names.mapM strCell
  let cnts := cumcountAux [] names
  return (t.zip (snames.zip cnts)).map
    (fun rc => rc.1 ++ [("key", Val.str (rc.2.1 ++ " - " ++ natToStr rc.2.2))])

/-- Key computation for `--join-type grid`:
`key = KernelName + " - " + grd.astype(str) + " - " + cumcount`, with the
occurrence count scoped to the `(KernelName, grd)` pair. -/
def addKeysGrid (t : Table) : Option Table := do
  let pairs ← t.mapM (fun r => do
    let n ← rowGet r "KernelName"
    let g ← rowGet r "grd"
    pure (n, g))
  let snames ← pairs.mapM (fun p => strCell p.1)
  let cnts := cumcountAux [] pairs
  return (t.zip ((snames.zip (pairs.map Prod.snd)).zip cnts)).map
    (fun rc => rc.1 ++
      [("key", Val.str (rc.2.1.1 ++ " - " ++ valText rc.2.1.2 ++ " - " ++
        natToStr rc.2.2))])

/-- Dispatch on the join type; `none` models
`sys.exit(1)` on an unrecognized `--join-type`. -/
def addKeys (join_type : String) (t : Table) : Option Table :=
  if join_type = "kernel" then addKeysKernel t
  else if join_type = "grid" then addKeysGrid t
  else none

/-- The join key of a keyed row. -/
def rowKey (r : Row) : Option Val := rowGet r "key"

/-- Rename the columns of a right-hand merge row: the join column `key`
is not duplicated, and a column whose name also occurs in the left frame
receives the suffix `_i` (`pd.merge(..., suffixes=("", f"_{i}"))`). -/
def renameRight (leftCols : List String) (i : Nat) (r : Row) : Row :=
  r.filterMap (fun e =>
    if e.1 = "key" then none
    else if e.1 ∈ leftCols then some (e.1 ++ "_" ++ natToStr i, e.2)
    else some e)

/-- `pd.merge(df, _df, how="inner", on="key", suffixes=("", f"_{i}"))`:
every left row is combined with every right row carrying the same key. -/
def mergeInner (t1 t2 : Table) (i : Nat) : Table :=
  let lcols := tableCols t1
  t1.flatMap (fun r1 =>
    (t2.filter (fun r2 => rowKey r2 == rowKey r1)).map
      (fun r2 => r1 ++ renameRight lcols i r2))

/-- Successive inner joins of the keyed tables; `i` is the enumeration
index of the next file (suffixes start at `_1`). -/
def joinAllAux (join_type : String) (acc : Table) (i : Nat) :
    List Table → Option Table
  | [] => some acc
  | t :: ts => do
    let tk ← addKeys join_type t
    joinAllAux join_type (mergeInner acc tk i) (i + 1) ts

/-- Key every per-pass table and inner-join them all; `none` on an empty
file list models `df` staying `None` and the subsequent crash. -/
def joinAll (join_type : String) : List Table → Option Table
  | [] => none
  | t :: ts => do
    let t0 ← addKeys join_type t
    joinAllAux join_type t0 1 ts

/-- The column families expected to be invariant across passes:
family label (used in the warning message) and the substring that
selects the family's columns. -/
def duplicate_cols : List (String × String) :=
  [("gpu", "gpu"), ("grd", "grd"), ("wgr", "wgr"), ("lds", "lds"),
   ("scr", "scr"), ("arch_vgpr", "arch_vgpr"), ("accum_vgpr", "accum_vgpr"),
   ("spgr", "sgpr")]

/-- The columns of `t` whose name contains `sub`. -/
def famCols (t : Table) (sub : String) : List String :=
  (tableCols t).filter (fun c => strContains c sub)

/-- `test_df_column_equality(df[cols])`: every selected column equals the
first selected column, element-wise over all rows.  `none` models the
`IndexError` of `df.iloc[:, 0]` when no column was selected. -/
def test_df_column_equality (t : Table) (cols : List String) : Option Bool :=
  match cols with
  | [] => none
  | c0 :: _ =>
    some (t.all (fun r => cols.all (fun c => rowGet r c == rowGet r c0)))

/-- The data-quality warning text for a family. -/
def warnMsg (fam : String) : String :=
  "WARNING: Detected differing " ++ fam ++
    " values while joining pmc_perf.csv"

/-- The family-comparison loop: for each declared-invariant family,
compare all copies and collect a warning when they differ.  The frame is
not modified; disagreement never aborts. -/
def familyWarnings (t : Table) : Option (List String) :=
  List.foldlM (fun ws fam => do
      let ok ← test_df_column_equality t (famCols t fam.2)
      pure (if ok then ws else ws ++ [warnMsg fam.1]))
    [] duplicate_cols

/-- The substring checks of step A: suffixed duplicates of invariant
columns, and inherently unmergeable per-pass columns. -/
def boringChecks : List String :=
  ["gpu-id_", "grd_", "wgr_", "lds_", "scr_", "vgpr_", "sgpr_", "Index_",
   "queue-id", "queue-index", "pid", "tid", "fbar", "sig", "obj"]

/-- Step A: drop every column whose name contains one of the checks. -/
def dropBoring (t : Table) : Table :=
  t.map (fun r =>
    r.filter (fun e => !(boringChecks.any (fun ck => strContains e.1 ck))))

/-- Step B: drop all `DispatchNs` / `CompleteNs` timestamp columns. -/
def dropTs (t : Table) : Table :=
  t.map (fun r =>
    r.filter (fun e =>
      !(["DispatchNs", "CompleteNs"].any (fun ck => strContains e.1 ck))))

/-- The kernel-name columns of a frame. -/
def namekeysOf (t : Table) : List String :=
  (tableCols t).filter (fun k => strContains k "KernelName")

/-- Step C: `assert len(namekeys)`, then assert every kernel-name column
equals the first one on every row, then drop the duplicates.  `none`
models a failed `assert` (fatal; nothing is written). -/
def checkNames (t : Table) : Option Table :=
  match namekeysOf t with
  | [] => none
  | k0 :: rest =>
    if rest.all (fun k => t.all (fun r => rowGet r k == rowGet r k0)) then
      some (t.map (fun r => r.filter (fun e => !(rest.contains e.1))))
    else none

/-- The arithmetic mean of the numeric cells, kept exact
(`Val.frac 0 0` stands for the NaN pandas produces when no numeric cell
exists). -/
def meanVal (l : List Val) : Val :=
  let ns := l.filterMap (fun v => match v with | .num n => some n | _ => none)
  Val.frac ns.sum ns.length

/-- Replace all `Begin*` / `End*` timestamp columns by their across-pass
means `BeginNs` and `EndNs`. -/
def meanStep (t : Table) : Table :=
  let bkeys := (tableCols t).filter (fun k => strContains k "Begin")
  let ekeys := (tableCols t).filter (fun k => strContains k "End")
  t.map (fun r =>
    (r.filter (fun e => !(bkeys.contains e.1) && !(ekeys.contains e.1))) ++
      [("BeginNs", meanVal (bkeys.filterMap (rowGet r))),
       ("EndNs", meanVal (ekeys.filterMap (rowGet r)))])

/-- Drop the join key column. -/
def dropKeyCol (t : Table) : Table :=
  t.map (fun r => r.filter (fun e => e.1 ≠ "key"))

/-- `join_prof`, from reading the per-pass tables to the unified frame
written to `pmc_perf.csv`, together with the data-quality warnings
emitted along the way.  A `some` result is exactly the case in which the
source writes the output file. -/
def join_prof_model (tables : List Table) (join_type : String) :
    Option (Table × List String) := do
  let df ← joinAll join_type tables
  let ws ← familyWarnings df
  let df1 := dropTs (dropBoring df)
  let df2 ← checkNames df1
  return (dropKeyCol (meanStep df2), ws)

/-- A small concrete bucket structure used to instantiate the scheduler
theorems. -/
def plW : PmcList :=
  { ordinary := [("SQ", ["SQ_A", "SQ_B", "SQ_C"]), ("GRBM", []),
      ("TCP", ["TCP_A"]), ("TA", []), ("TD", []), ("SPI", []), ("CPC", []),
      ("CPF", []), ("GDS", [])]
    tcc := ["TCC_X"]
    tcc2 := (List.range 32).map
      (fun ch => (natToStr ch, if ch = 0 then ["TCC_H[0]", "TCC_I[0]"] else [])) }

/-- The first of the two passes the scheduler emits for `plW` on
`vega10`. -/
def passW0 : Pass :=
  Pass.mk
    [("SQ", ["SQ_A", "SQ_B", "SQ_C"]), ("GRBM", []), ("TCP", ["TCP_A"]),
      ("TA", []), ("TD", []), ("SPI", []), ("CPC", []), ("CPF", []),
      ("GDS", [])]
    ["TCC_X"] []

/-- The second of the two passes the scheduler emits for `plW` on
`vega10`: the aggregated TCC bucket is exhausted, so the per-channel
buckets contribute. -/
def passW1 : Pass :=
  Pass.mk (ordinaryBlockNames.map (fun b => (b, []))) []
    ((List.range 16).map
      (fun ch =>
        (natToStr ch, if ch = 0 then ["TCC_H[0]", "TCC_I[0]"] else [])))

/-! ## Coalescer characterization -/

/-- The counter tokens of one line that reach normal bucketing: empty
for skipped lines and for level-counter lines. -/
def lineTokens (line : String) : List String :=
  let stext := stripComment line
  if stext = "" then []
  else
    match pmcRest stext with
    | none => []
    | some rest =>
      let counters := pySplit rest
      if accumToken ∈ counters then [] else counters

/-- All bucketed tokens of a list of sources, in processing order. -/
def sourceTokens (sources : List (List String)) : List String :=
  sources.flatMap (fun lines => lines.flatMap lineTokens)

/-- `dedupFrom` lifted to an optional bucket: an absent bucket is
created on the first insertion (`pmc_list["TCC2"][str(ch)] = [counter]`),
and an untouched absent bucket stays absent. -/
def dedupFromOpt (o : Option (List String)) : List String → Option (List String)
  | [] => o
  | c :: cs => dedupFromOpt (some (appendUnique c (o.getD []))) cs

/-- The three bucket views of a `PmcList` reached from `base` by
inserting the token list `ts`: every ordinary bucket, the aggregated TCC
bucket and every per-channel TCC bucket is the first-occurrence
deduplication of the tokens classified into it, appended to the base
bucket. -/
def BucketViews (base : PmcList) (ts : List String) (pmc : PmcList) :
    Prop :=
  (∀ blk, blk ≠ "TCC" → List.lookup blk pmc.ordinary =
    (List.lookup blk base.ordinary).map
      (fun b => dedupFrom b (ts.filter (fun c => ipBlockOf c == blk)))) ∧
  pmc.tcc = dedupFrom base.tcc
    (ts.filter (fun c => ipBlockOf c == "TCC" && tccChannel c == none)) ∧
  (∀ ch, List.lookup ch pmc.tcc2 =
    dedupFromOpt (List.lookup ch base.tcc2)
      (ts.filter (fun c => ipBlockOf c == "TCC" && tccChannel c == some ch)))

/-- Split a token at the channel bracket the regex captures: the prefix
before the right-most `[digits]` group (at position at least 1) and the
digit group itself. -/
def chanSplit : List Char → Option (List Char × String)
  | [] => none
  | c :: cs =>
    match chanSplit cs with
    | some (pre, d) => some (c :: pre, d)
    | none =>
      match bracketAt cs with
      | some d => some ([c], d)
      | none => none

/-- The base name of a channel-addressed counter: the token text before
its channel bracket (the token itself when no channel bracket exists). -/
def tccBase (counter : String) : String :=
  match chanSplit counter.data with
  | some (pre, _) => String.mk pre
  | none => counter

/-- Two sources sharing the per-channel counter `TCC_B[0]`. -/
def sources5 : List (List String) :=
  [["pmc: TCC_B[0]"], ["pmc: TCC_A[0] TCC_B[0]"]]

/-- A line giving every `vega10` TCC channel one counter, with a
different counter name on channel 0. -/
def line6 : String :=
  String.intercalate " " ("pmc: TCC_A[0]" ::
    (List.range 15).map (fun i => "TCC_B[" ++ natToStr (i + 1) ++ "]"))

/-- A level-counter line that also carries an ordinary counter. -/
def line7 : String := "pmc: SQ_WAVES SQ_LEVEL_WAVES SQ_ACCUM_PREV_HIRES"

/-- A full-schema profiling row as `rocprof` emits it, kernel name
`A - 1`, grid size `0`. -/
def t4a : Table :=
  [[("Index", Val.num 0), ("KernelName", Val.str "A - 1"),
    ("gpu-id", Val.num 2), ("grd", Val.num 0), ("wgr", Val.num 64),
    ("lds", Val.num 0), ("scr", Val.num 0), ("arch_vgpr", Val.num 8),
    ("accum_vgpr", Val.num 0), ("sgpr", Val.num 16), ("queue-id", Val.num 1),
    ("pid", Val.num 11), ("tid", Val.num 12), ("DispatchNs", Val.num 1),
    ("BeginNs", Val.num 10), ("EndNs", Val.num 20),
    ("CompleteNs", Val.num 30), ("SQ_WAVES", Val.num 4)]]

/-- A second-pass row whose kernel name `A` and (string-typed) grid cell
`1 - 0` give the *same* grid-join key as `t4a` while the kernel names
differ. -/
def t4b : Table :=
  [[("Index", Val.num 0), ("KernelName", Val.str "A"),
    ("gpu-id", Val.num 2), ("grd", Val.str "1 - 0"), ("wgr", Val.num 64),
    ("lds", Val.num 0), ("scr", Val.num 0), ("arch_vgpr", Val.num 8),
    ("accum_vgpr", Val.num 0), ("sgpr", Val.num 16), ("queue-id", Val.num 1),
    ("pid", Val.num 11), ("tid", Val.num 12), ("DispatchNs", Val.num 2),
    ("BeginNs", Val.num 12), ("EndNs", Val.num 22),
    ("CompleteNs", Val.num 32), ("TCC_HIT", Val.num 7)]]

/-- A full-schema first-pass row: kernel `K`, grid size 256. -/
def t9a : Table :=
  [[("Index", Val.num 0), ("KernelName", Val.str "K"),
    ("gpu-id", Val.num 2), ("grd", Val.num 256), ("wgr", Val.num 64),
    ("lds", Val.num 0), ("scr", Val.num 0), ("arch_vgpr", Val.num 8),
    ("accum_vgpr", Val.num 0), ("sgpr", Val.num 16), ("queue-id", Val.num 1),
    ("pid", Val.num 11), ("tid", Val.num 12), ("DispatchNs", Val.num 1),
    ("BeginNs", Val.num 10), ("EndNs", Val.num 20),
    ("CompleteNs", Val.num 30), ("SQ_WAVES", Val.num 4)]]

/-- A second-pass row for the same kernel with a *differing* grid size
(512): the `grd` family disagrees across passes. -/
def t9b : Table :=
  [[("Index", Val.num 0), ("KernelName", Val.str "K"),
    ("gpu-id", Val.num 2), ("grd", Val.num 512), ("wgr", Val.num 64),
    ("lds", Val.num 0), ("scr", Val.num 0), ("arch_vgpr", Val.num 8),
    ("accum_vgpr", Val.num 0), ("sgpr", Val.num 16), ("queue-id", Val.num 1),
    ("pid", Val.num 11), ("tid", Val.num 12), ("DispatchNs", Val.num 2),
    ("BeginNs", Val.num 12), ("EndNs", Val.num 22),
    ("CompleteNs", Val.num 32), ("TCC_HIT", Val.num 7)]]

/-- The keyed copy of `t9a`. -/
def ka9 : Table := (addKeys "kernel" t9a).getD []

/-- The keyed copy of `t9b`. -/
def kb9 : Table := (addKeys "kernel" t9b).getD []

/-- The joined frame of the two passes. -/
def df9 : Table := mergeInner ka9 kb9 1

/-- The joined frame after trimming and the kernel-name check. -/
def df9' : Table := (checkNames (dropTs (dropBoring df9))).getD []

/-- The warnings collected over `df9`. -/
def ws9 : List String := (familyWarnings df9).getD []

/-! ## Arithmetic and list lemmas -/

theorem cdiv_le_iff {d : Nat} (hd : 0 < d) (a k : Nat) :
    cdiv a d ≤ k ↔ a ≤ k * d := by
  unfold cdiv
  rw [Nat.div_le_iff_le_mul_add_pred hd, Nat.mul_comm d k]
  omega

theorem lt_cdiv_iff {d : Nat} (hd : 0 < d) (a k : Nat) :
    k < cdiv a d ↔ k * d < a := by
  have h := cdiv_le_iff hd a k
  omega

theorem le_cdiv_mul {d : Nat} (hd : 0 < d) (a : Nat) : a ≤ cdiv a d * d :=
  (cdiv_le_iff hd a (cdiv a d)).mp le_rfl

theorem slice_length_le (l : List String) (i N : Nat) :
    (slice l i N).length ≤ N := by
  simp [slice]

theorem slice_eq_nil_iff {N : Nat} (hN : 0 < N) (l : List String) (i : Nat) :
    slice l i N = [] ↔ cdiv l.length N ≤ i := by
  unfold slice
  rw [List.take_eq_nil_iff, List.drop_eq_nil_iff, cdiv_le_iff hN]
  omega

theorem flatten_slices (l : List String) (N : Nat) :
    ∀ m, ((List.range m).map (fun i => slice l i N)).flatten = l.take (m * N)
  | 0 => by simp
  | m + 1 => by
    rw [List.range_succ, List.map_append, List.flatten_append,
      flatten_slices l N m]
    simp only [List.map_cons, List.map_nil, List.flatten_cons,
      List.flatten_nil, List.append_nil, slice]
    rw [Nat.succ_mul, List.take_add]

theorem countP_range'_lt (k : Nat) :
    ∀ (n s : Nat), (List.range' s n).countP (fun i => decide (i < k)) =
      min (s + n) k - min s k
  | 0, s => by simp
  | n + 1, s => by
    rw [List.range'_succ, List.countP_cons]
    rw [countP_range'_lt k n (s + 1)]
    by_cases h : s < k <;> simp [h] <;> omega

theorem maxNat_cons (a : Nat) (l : List Nat) :
    maxNat (a :: l) = Nat.max a (maxNat l) := rfl

theorem le_maxNat_of_mem {a : Nat} : ∀ {l : List Nat}, a ∈ l → a ≤ maxNat l
  | b :: l, h => by
    rcases List.mem_cons.mp h with h | h
    · subst h; exact Nat.le_max_left _ _
    · exact Nat.le_trans (le_maxNat_of_mem h) (Nat.le_max_right _ _)

theorem foldl_max_eq_maxNat (x : Nat) :
    ∀ (xs : List Nat), xs.foldl Nat.max x = Nat.max x (maxNat xs)
  | [] => by simp [maxNat]
  | y :: ys => by
    rw [List.foldl_cons, foldl_max_eq_maxNat (Nat.max x y) ys, maxNat_cons]
    exact Nat.max_assoc x y (maxNat ys)

/-- An associative-list lookup hit is a member. -/
theorem lookup_mem {β : Type} {k : String} {v : β} :
    ∀ {l : List (String × β)}, List.lookup k l = some v → (k, v) ∈ l
  | (k', v') :: rest, h => by
    rw [List.lookup_cons] at h
    by_cases hk : k = k'
    · subst hk; simp at h; simp [h]
    · simp [beq_eq_false_iff_ne.mpr hk] at h
      exact List.mem_cons_of_mem _ (lookup_mem h)

/-- If a key is absent from an association list, filtering for it gives
nothing. -/
theorem filter_key_eq_nil {β : Type} {blk : String} :
    ∀ {l : List (String × β)}, blk ∉ l.map Prod.fst →
      l.filter (fun e => e.1 = blk) = []
  | [], _ => rfl
  | (k, v) :: rest, h => by
    simp only [List.map_cons, List.mem_cons, not_or] at h
    simp [List.filter_cons, Ne.symm h.1, filter_key_eq_nil h.2]

/-- With distinct keys, filtering an association list for a present key
yields exactly that entry. -/
theorem filter_key_singleton {β : Type} {blk : String} {x : β} :
    ∀ {l : List (String × β)}, (l.map Prod.fst).Nodup → (blk, x) ∈ l →
      l.filter (fun e => e.1 = blk) = [(blk, x)]
  | (k, v) :: rest, hn, hm => by
    simp only [List.map_cons, List.nodup_cons] at hn
    rcases List.mem_cons.mp hm with h | h
    · cases h
      have : rest.filter (fun e => e.1 = blk) = [] :=
        filter_key_eq_nil (by simpa using hn.1)
      simp [List.filter_cons, this]
    · have hk : k ≠ blk := by
        rintro rfl
        exact hn.1 (List.mem_map.mpr ⟨(k, x), h, rfl⟩)
      simp [List.filter_cons, hk, filter_key_singleton hn.2 h]

/-- Success of `mapOpt` with the capacity-lookup function: the result is
the pointwise map and every lookup succeeded. -/
theorem mapOpt_lookup_caps (cfg : List (String × Nat)) :
    ∀ (l : List (String × List String)) r,
      mapOpt (fun e => (List.lookup e.1 cfg).map (fun c => (e.1, e.2, c)))
          l = some r →
        r = l.map (fun e => (e.1, e.2, (List.lookup e.1 cfg).getD 0)) ∧
          ∀ e ∈ l, (List.lookup e.1 cfg).isSome
  | [], r => by
    intro h
    simp only [mapOpt, Option.some.injEq] at h
    subst h
    simp
  | a :: l, r => by
    intro h
    cases ha : List.lookup a.1 cfg with
    | none => simp [mapOpt, ha] at h
    | some c =>
      cases hl : mapOpt
          (fun e => (List.lookup e.1 cfg).map (fun c => (e.1, e.2, c))) l with
      | none => simp [mapOpt, ha, hl] at h
      | some r' =>
        simp [mapOpt, ha, hl] at h
        subst h
        obtain ⟨hr, hall⟩ := mapOpt_lookup_caps cfg l r' hl
        refine ⟨?_, ?_⟩
        · rw [List.map_cons, ← hr, ha]
          rfl
        · intro e he
          rcases List.mem_cons.mp he with rfl | he
          · simp [ha]
          · exact hall e he

/-- Success of `mapOpt` with the channel-lookup function: the result maps
every canonical channel to its bucket. -/
theorem mapOpt_chan (pl : PmcList) :
    ∀ (l : List Nat) r,
      mapOpt (fun ch => (List.lookup (natToStr ch) pl.tcc2).map
          (fun b => (natToStr ch, b))) l = some r →
        r = l.map (fun ch => (natToStr ch, chanBucket pl ch))
  | [], r => by
    intro h
    simp only [mapOpt, Option.some.injEq] at h
    subst h
    simp
  | a :: l, r => by
    intro h
    cases ha : List.lookup (natToStr a) pl.tcc2 with
    | none => simp [mapOpt, ha] at h
    | some b =>
      cases hl : mapOpt (fun ch => (List.lookup (natToStr ch) pl.tcc2).map
          (fun b => (natToStr ch, b))) l with
      | none => simp [mapOpt, ha, hl] at h
      | some r' =>
        simp [mapOpt, ha, hl] at h
        subst h
        rw [mapOpt_chan pl l r' hl, List.map_cons]
        simp [chanBucket, ha]

/-! ## Fraction lemmas: `math.ceil` of `max` of float quotients -/

theorem fracCeil_mono {a b : Frac} (ha : 0 < a.den) (hb : 0 < b.den)
    (h : a.num * b.den ≤ b.num * a.den) : fracCeil a ≤ fracCeil b := by
  show cdiv a.num a.den ≤ cdiv b.num b.den
  rw [cdiv_le_iff ha]
  have h1 : b.num * a.den ≤ cdiv b.num b.den * b.den * a.den :=
    Nat.mul_le_mul_right _ (le_cdiv_mul hb b.num)
  have h2 : a.num * b.den ≤ cdiv b.num b.den * a.den * b.den := by
    calc a.num * b.den ≤ b.num * a.den := h
      _ ≤ cdiv b.num b.den * b.den * a.den := h1
      _ = cdiv b.num b.den * a.den * b.den := by ring
  exact Nat.le_of_mul_le_mul_right h2 hb

theorem fracCeil_pick {a b : Frac} (ha : 0 < a.den) (hb : 0 < b.den) :
    fracCeil (if fracLt a b then b else a) =
      Nat.max (fracCeil a) (fracCeil b) := by
  by_cases h : fracLt a b = true
  · have hab : a.num * b.den ≤ b.num * a.den := by
      have := of_decide_eq_true h
      omega
    rw [if_pos h]
    exact (Nat.max_eq_right (fracCeil_mono ha hb hab)).symm
  · have hba : b.num * a.den ≤ a.num * b.den := by
      have := of_decide_eq_false (eq_false_of_ne_true h)
      omega
    rw [if_neg h]
    exact (Nat.max_eq_left (fracCeil_mono hb ha hba)).symm

theorem fracCeil_foldl (x : Frac) :
    ∀ (xs : List Frac), 0 < x.den → (∀ y ∈ xs, 0 < y.den) →
      fracCeil (xs.foldl (fun m y => if fracLt m y then y else m) x) =
        Nat.max (fracCeil x) (maxNat (xs.map fracCeil))
  | [], _, _ => by simp [maxNat]
  | y :: ys, hx, hys => by
    rw [List.foldl_cons]
    have hy : 0 < y.den := hys y (by simp)
    have hpick : 0 < (if fracLt x y then y else x).den := by
      split <;> assumption
    rw [fracCeil_foldl _ ys hpick (fun z hz => hys z (by simp [hz])),
      fracCeil_pick hx hy, List.map_cons, maxNat_cons]
    exact Nat.max_assoc _ _ _

theorem pyMaxFrac_ceil {l : List Frac} {m : Frac} (h : pyMaxFrac l = some m)
    (hd : ∀ y ∈ l, 0 < y.den) : fracCeil m = maxNat (l.map fracCeil) := by
  cases l with
  | nil => simp [pyMaxFrac] at h
  | cons x xs =>
    simp only [pyMaxFrac, Option.some.injEq] at h
    subst h
    rw [fracCeil_foldl x xs (hd x (by simp)) (fun z hz => hd z (by simp [hz])),
      List.map_cons, maxNat_cons]

/-! ## `emitLoop` characterization -/

theorem emitLoop_length (oc : List (String × List String × Nat))
    (tcc : List String) (cap : Nat) (chB : List (String × List String)) :
    ∀ (f it t2 : Nat), (emitLoop oc tcc cap chB it t2 f).length = f
  | 0, _, _ => rfl
  | f + 1, it, t2 => by
    simp only [emitLoop]
    split <;> simp [emitLoop_length oc tcc cap chB f]

theorem emitLoop_map_ordinary (oc : List (String × List String × Nat))
    (tcc : List String) (cap : Nat) (chB : List (String × List String)) :
    ∀ (f it t2 : Nat),
      (emitLoop oc tcc cap chB it t2 f).map Pass.ordinary =
        (List.range' it f).map
          (fun i => oc.map (fun e => (e.1, slice e.2.1 i e.2.2)))
  | 0, _, _ => rfl
  | f + 1, it, t2 => by
    simp only [emitLoop]
    rw [List.range'_succ]
    split <;>
      simp [emitLoop_map_ordinary oc tcc cap chB f]

theorem emitLoop_map_tcc (oc : List (String × List String × Nat))
    (tcc : List String) (cap : Nat) (chB : List (String × List String)) :
    ∀ (f it t2 : Nat),
      (emitLoop oc tcc cap chB it t2 f).map Pass.tcc =
        (List.range' it f).map (fun i => slice tcc i cap)
  | 0, _, _ => rfl
  | f + 1, it, t2 => by
    simp only [emitLoop]
    rw [List.range'_succ]
    split <;>
      simp [emitLoop_map_tcc oc tcc cap chB f]

theorem emitLoop_map_tccCh (oc : List (String × List String × Nat))
    (tcc : List String) (cap : Nat) (chB : List (String × List String))
    (hcap : 0 < cap) :
    ∀ (f it t2 : Nat), t2 = it - min it (cdiv tcc.length cap) →
      (emitLoop oc tcc cap chB it t2 f).map Pass.tccCh =
        (List.range' it f).map (fun i =>
          if cdiv tcc.length cap ≤ i then
            chB.map
              (fun e => (e.1, slice e.2 (i - cdiv tcc.length cap) cap))
          else [])
  | 0, _, _, _ => rfl
  | f + 1, it, t2, hinv => by
    simp only [emitLoop]
    rw [List.range'_succ]
    by_cases hemp : (slice tcc it cap).isEmpty
    · have hle : cdiv tcc.length cap ≤ it :=
        (slice_eq_nil_iff hcap tcc it).mp (List.isEmpty_iff.mp hemp)
      have ht2 : t2 = it - cdiv tcc.length cap := by omega
      rw [if_pos hemp, List.map_cons,
        emitLoop_map_tccCh oc tcc cap chB hcap f (it + 1) (t2 + 1) (by omega),
        List.map_cons, if_pos hle, ht2]
    · have hlt : ¬ cdiv tcc.length cap ≤ it := fun hc =>
        hemp (List.isEmpty_iff.mpr ((slice_eq_nil_iff hcap tcc it).mpr hc))
      rw [if_neg hemp, List.map_cons,
        emitLoop_map_tccCh oc tcc cap chB hcap f (it + 1) t2 (by omega),
        List.map_cons, if_neg hlt]

theorem emitLoop_mem (oc : List (String × List String × Nat))
    (tcc : List String) (cap : Nat) (chB : List (String × List String)) :
    ∀ (f it t2 : Nat) (p : Pass), p ∈ emitLoop oc tcc cap chB it t2 f →
      ∃ i j, p.ordinary = oc.map (fun e => (e.1, slice e.2.1 i e.2.2)) ∧
        p.tcc = slice tcc i cap ∧
        (p.tccCh = [] ∨ p.tccCh = chB.map (fun e => (e.1, slice e.2 j cap)))
  | 0, it, t2, p, h => by simp [emitLoop] at h
  | f + 1, it, t2, p, h => by
    simp only [emitLoop] at h
    by_cases hemp : (slice tcc it cap).isEmpty
    · rw [if_pos hemp] at h
      rcases List.mem_cons.mp h with rfl | h
      · exact ⟨it, t2, rfl, rfl, Or.inr rfl⟩
      · exact emitLoop_mem oc tcc cap chB f (it + 1) (t2 + 1) p h
    · rw [if_neg hemp] at h
      rcases List.mem_cons.mp h with rfl | h
      · exact ⟨it, t2, rfl, rfl, Or.inl rfl⟩
      · exact emitLoop_mem oc tcc cap chB f (it + 1) t2 p h

/-- Every capacity entry of every architecture profile is positive. -/
theorem config_pos {soc : String} {cfg : List (String × Nat)}
    (h : lookupConfig soc = some cfg) {k : String} {c : Nat}
    (hk : List.lookup k cfg = some c) : 0 < c := by
  have hmem : (soc, cfg) ∈ perfmon_config := lookup_mem h
  have hc : c ∈ cfg.map Prod.snd :=
    List.mem_map.mpr ⟨(k, c), lookup_mem hk, rfl⟩
  simp only [perfmon_config, List.mem_cons, List.not_mem_nil, or_false]
    at hmem
  rcases hmem with h1 | h1 | h1 | h1 <;>
    (injection h1 with ha hb; subst hb; simp at hc; omega)

/-- Unfolded success of `perfmon_emit`: names for all intermediate data. -/
theorem perfmon_emit_elim {pl : PmcList} {soc : String} {passes : List Pass}
    {cfg : List (String × Nat)} {tccCap channels : Nat}
    (hemit : perfmon_emit pl soc = some passes)
    (hcfg : lookupConfig soc = some cfg)
    (htcc : List.lookup "TCC" cfg = some tccCap)
    (hch : List.lookup "TCC_channels" cfg = some channels) :
    ∃ ordCaps chBuckets mo m2,
      mapOpt (fun e => (List.lookup e.1 cfg).map (fun c => (e.1, e.2, c)))
          pl.ordinary = some ordCaps ∧
      mapOpt (fun ch => (List.lookup (natToStr ch) pl.tcc2).map
          (fun b => (natToStr ch, b))) (List.range channels) =
        some chBuckets ∧
      pyMaxFrac (ordCaps.map (fun e => Frac.mk e.2.1.length e.2.2)) =
        some mo ∧
      pyMaxFrac (chBuckets.map (fun e => Frac.mk e.2.length tccCap)) =
        some m2 ∧
      passes = emitLoop ordCaps pl.tcc tccCap chBuckets 0 0
        (Nat.max (fracCeil mo)
          (fracCeil (Frac.mk pl.tcc.length tccCap) + fracCeil m2)) := by
  rw [perfmon_emit, hcfg] at hemit
  simp only [Option.bind_eq_bind, Option.pure_def] at hemit
  rw [Option.some_bind] at hemit
  cases hoc : mapOpt
      (fun e => (List.lookup e.1 cfg).map (fun c => (e.1, e.2, c)))
      pl.ordinary with
  | none => rw [hoc, Option.none_bind] at hemit; exact absurd hemit (by simp)
  | some ordCaps =>
    rw [hoc, Option.some_bind, htcc, Option.some_bind, hch,
      Option.some_bind] at hemit
    cases hcb : mapOpt (fun ch => (List.lookup (natToStr ch) pl.tcc2).map
        (fun b => (natToStr ch, b))) (List.range channels) with
    | none => rw [hcb, Option.none_bind] at hemit; exact absurd hemit (by simp)
    | some chBuckets =>
      rw [hcb, Option.some_bind] at hemit
      cases hmo : pyMaxFrac
          (ordCaps.map (fun e => Frac.mk e.2.1.length e.2.2)) with
      | none => rw [hmo, Option.none_bind] at hemit; exact absurd hemit (by simp)
      | some mo =>
        rw [hmo, Option.some_bind] at hemit
        cases hm2 : pyMaxFrac
            (chBuckets.map (fun e => Frac.mk e.2.length tccCap)) with
        | none =>
          rw [hm2, Option.none_bind] at hemit; exact absurd hemit (by simp)
        | some m2 =>
          rw [hm2, Option.some_bind] at hemit
          simp only [Option.some.injEq] at hemit
          exact ⟨ordCaps, chBuckets, mo, m2, rfl, rfl, hmo, hm2,
            hemit.symm⟩

/-- Round-trip of consecutive capacity-sized slices over enough passes:
concatenation restores the bucket, and exactly `ceil(len/cap)` slices are
nonempty. -/
theorem slices_roundtrip {bucket : List String} {cap m : Nat}
    (hcap : 0 < cap) (hm : cdiv bucket.length cap ≤ m) :
    ((List.range m).map (fun i => slice bucket i cap)).flatten = bucket ∧
      (List.range m).countP (fun i => !(slice bucket i cap).isEmpty) =
        cdiv bucket.length cap := by
  constructor
  · rw [flatten_slices]
    apply List.take_of_length_le
    calc bucket.length ≤ cdiv bucket.length cap * cap := le_cdiv_mul hcap _
      _ ≤ m * cap := Nat.mul_le_mul_right cap hm
  · have hq : ∀ i ∈ List.range m,
        (!(slice bucket i cap).isEmpty) = true ↔
          decide (i < cdiv bucket.length cap) = true := by
      intro i _
      by_cases hc : i < cdiv bucket.length cap
      · have hne : slice bucket i cap ≠ [] := fun he => by
          have := (slice_eq_nil_iff hcap bucket i).mp he
          omega
        simp [List.isEmpty_iff, hc, hne]
      · have he : slice bucket i cap = [] :=
          (slice_eq_nil_iff hcap bucket i).mpr (by omega)
        simp [List.isEmpty_iff, hc, he]
    rw [List.countP_congr hq, List.range_eq_range', countP_range'_lt]
    omega

/-- **C1.** For every bucket structure and architecture profile, the
number of pass lines emitted by the scheduler equals the maximum over all
ordinary blocks of `ceil(bucket_size / capacity)`, compared against
`ceil(aggregated_TCC_size / TCC_capacity) + ceil(max over channels of
per_channel_TCC_size / TCC_capacity)`, taking the overall maximum of
these two quantities. -/
theorem c1_pass_count {pl : PmcList} {soc : String} {passes : List Pass}
    {cfg : List (String × Nat)} {tccCap channels : Nat}
    (hemit : perfmon_emit pl soc = some passes)
    (hcfg : lookupConfig soc = some cfg)
    (htcc : List.lookup "TCC" cfg = some tccCap)
    (hch : List.lookup "TCC_channels" cfg = some channels) :
    passes.length = specNumPasses pl cfg tccCap channels := by
  obtain ⟨ordCaps, chBuckets, mo, m2, hoc, hcb, hmo, hm2, hpass⟩ :=
    perfmon_emit_elim hemit hcfg htcc hch
  obtain ⟨hocs, hall⟩ := mapOpt_lookup_caps cfg pl.ordinary ordCaps hoc
  have hcbs := mapOpt_chan pl (List.range channels) chBuckets hcb
  have htccPos : 0 < tccCap := config_pos hcfg htcc
  subst hpass hocs hcbs
  rw [emitLoop_length]
  have hmo' : fracCeil mo = maxNat (pl.ordinary.map
      (fun e => cdiv e.2.length ((List.lookup e.1 cfg).getD 0))) := by
    rw [pyMaxFrac_ceil hmo ?_]
    · rw [List.map_map, List.map_map]
      rfl
    · intro y hy
      rw [List.map_map] at hy
      obtain ⟨e, he, rfl⟩ := List.mem_map.mp hy
      obtain ⟨c, hc⟩ := Option.isSome_iff_exists.mp (hall e he)
      simpa [Function.comp, hc] using config_pos hcfg hc
  have hm2' : fracCeil m2 = maxNat ((List.range channels).map
      (fun ch => cdiv (chanBucket pl ch).length tccCap)) := by
    rw [pyMaxFrac_ceil hm2 ?_]
    · rw [List.map_map, List.map_map]
      rfl
    · intro y hy
      rw [List.map_map] at hy
      obtain ⟨e, _, rfl⟩ := List.mem_map.mp hy
      simpa [Function.comp] using htccPos
  rw [hmo', hm2']
  rfl

/-- Witness for `c1_pass_count` at a concrete bucket structure and SoC. -/
theorem c1_pass_count_witness :
    (perfmon_emit plW "mi200").map List.length =
      some (specNumPasses plW ((lookupConfig "mi200").getD []) 4 32) := by
  cases hemit : perfmon_emit plW "mi200" with
  | none => exact absurd hemit (by decide)
  | some passes =>
    rw [Option.map_some']
    exact congrArg some
      (c1_pass_count hemit (by decide) (by decide) (by decide))

/-- **C3.** No emitted pass assigns more than its configured capacity of
counters to any single block: every ordinary block slice is at most that
block's capacity, the aggregated TCC slice is at most the TCC capacity,
and every per-channel TCC slice is at most the TCC capacity. -/
theorem c3_capacity {pl : PmcList} {soc : String} {passes : List Pass}
    {cfg : List (String × Nat)} {tccCap channels : Nat}
    (hemit : perfmon_emit pl soc = some passes)
    (hcfg : lookupConfig soc = some cfg)
    (htcc : List.lookup "TCC" cfg = some tccCap)
    (hch : List.lookup "TCC_channels" cfg = some channels) :
    ∀ p ∈ passes,
      (∀ e ∈ p.ordinary, e.2.length ≤ (List.lookup e.1 cfg).getD 0) ∧
      p.tcc.length ≤ tccCap ∧
      (∀ e ∈ p.tccCh, e.2.length ≤ tccCap) := by
  obtain ⟨ordCaps, chBuckets, mo, m2, hoc, hcb, hmo, hm2, hpass⟩ :=
    perfmon_emit_elim hemit hcfg htcc hch
  obtain ⟨hocs, hall⟩ := mapOpt_lookup_caps cfg pl.ordinary ordCaps hoc
  have hcbs := mapOpt_chan pl (List.range channels) chBuckets hcb
  subst hpass hocs hcbs
  intro p hp
  obtain ⟨i, j, hord, htcc2, hchs⟩ := emitLoop_mem _ _ _ _ _ _ _ p hp
  refine ⟨?_, ?_, ?_⟩
  · intro e he
    rw [hord, List.map_map] at he
    obtain ⟨e', _, rfl⟩ := List.mem_map.mp he
    simpa [Function.comp] using slice_length_le e'.2 i ((List.lookup e'.1 cfg).getD 0)
  · rw [htcc2]
    exact slice_length_le _ _ _
  · intro e he
    rcases hchs with h | h
    · rw [h] at he
      simp at he
    · rw [h, List.map_map] at he
      obtain ⟨e', _, rfl⟩ := List.mem_map.mp he
      simpa [Function.comp] using slice_length_le (chanBucket pl e') j tccCap

/-- Extracting one block's slice from the per-pass association list of
slices built by mapping over an association list with distinct keys. -/
theorem assoc_slice_extract {l : List (String × List String)} {blk : String}
    {bucket : List String} (hn : (l.map Prod.fst).Nodup)
    (hm : (blk, bucket) ∈ l) (f : String × List String → List String) :
    (((l.map (fun e => (e.1, f e))).filter
        (fun e => e.1 = blk)).map Prod.snd).flatten = f (blk, bucket) := by
  have hn' : ((l.map (fun e => (e.1, f e))).map Prod.fst).Nodup := by
    have h : (l.map (fun e => (e.1, f e))).map Prod.fst = l.map Prod.fst := by
      rw [List.map_map]
      exact List.map_congr_left (fun a _ => rfl)
    rw [h]
    exact hn
  have hmem : (blk, f (blk, bucket)) ∈ l.map (fun e => (e.1, f e)) :=
    List.mem_map.mpr ⟨(blk, bucket), hm, rfl⟩
  rw [filter_key_singleton hn' hmem]
  simp

/-- The channel count of every valid profile is 16 or 32. -/
theorem channels_cases {soc : String} {cfg : List (String × Nat)}
    {channels : Nat} (hcfg : lookupConfig soc = some cfg)
    (hch : List.lookup "TCC_channels" cfg = some channels) :
    channels = 16 ∨ channels = 32 := by
  have hmem : (soc, cfg) ∈ perfmon_config := lookup_mem hcfg
  simp only [perfmon_config, List.mem_cons, List.not_mem_nil, or_false]
    at hmem
  rcases hmem with h1 | h1 | h1 | h1 <;>
    (injection h1 with ha hb; subst hb; simp [List.lookup] at hch; omega)

/-- **C2.** Round trip: for every ordinary block with capacity `C`
holding `B` counters, exactly `ceil(B/C)` of the emitted passes request
counters of that block, and the concatenation of its slices across all
passes, in pass order, is exactly the original bucket; the same holds
for the aggregated TCC bucket and for every canonical per-channel TCC
sub-bucket, with the TCC capacity.  In particular every bucketed counter
appears in exactly one pass. -/
theorem c2_roundtrip {pl : PmcList} {soc : String} {passes : List Pass}
    {cfg : List (String × Nat)} {tccCap channels : Nat}
    (hemit : perfmon_emit pl soc = some passes)
    (hcfg : lookupConfig soc = some cfg)
    (htcc : List.lookup "TCC" cfg = some tccCap)
    (hch : List.lookup "TCC_channels" cfg = some channels)
    (hnod : (pl.ordinary.map Prod.fst).Nodup) :
    (∀ blk bucket cap, (blk, bucket) ∈ pl.ordinary →
        List.lookup blk cfg = some cap →
        (passes.map (fun p => ordSliceOf p blk)).flatten = bucket ∧
        passes.countP (fun p => !(ordSliceOf p blk).isEmpty) =
          cdiv bucket.length cap) ∧
    ((passes.map Pass.tcc).flatten = pl.tcc ∧
      passes.countP (fun p => !(p.tcc).isEmpty) =
        cdiv pl.tcc.length tccCap) ∧
    (∀ ch, ch < channels →
        (passes.map (fun p => chSliceOf p (natToStr ch))).flatten =
          chanBucket pl ch ∧
        passes.countP (fun p => !(chSliceOf p (natToStr ch)).isEmpty) =
          cdiv (chanBucket pl ch).length tccCap) := by
  obtain ⟨ordCaps, chBuckets, mo, m2, hoc, hcb, hmo, hm2, hpass⟩ :=
    perfmon_emit_elim hemit hcfg htcc hch
  obtain ⟨hocs, hall⟩ := mapOpt_lookup_caps cfg pl.ordinary ordCaps hoc
  have hcbs := mapOpt_chan pl (List.range channels) chBuckets hcb
  have htccPos : 0 < tccCap := config_pos hcfg htcc
  subst hocs hcbs
  have hmo' : fracCeil mo = maxNat (pl.ordinary.map
      (fun e => cdiv e.2.length ((List.lookup e.1 cfg).getD 0))) := by
    rw [pyMaxFrac_ceil hmo ?_]
    · rw [List.map_map, List.map_map]
      rfl
    · intro y hy
      rw [List.map_map] at hy
      obtain ⟨e, he, rfl⟩ := List.mem_map.mp hy
      obtain ⟨c, hc⟩ := Option.isSome_iff_exists.mp (hall e he)
      simpa [Function.comp, hc] using config_pos hcfg hc
  have hm2' : fracCeil m2 = maxNat ((List.range channels).map
      (fun ch => cdiv (chanBucket pl ch).length tccCap)) := by
    rw [pyMaxFrac_ceil hm2 ?_]
    · rw [List.map_map, List.map_map]
      rfl
    · intro y hy
      rw [List.map_map] at hy
      obtain ⟨e, _, rfl⟩ := List.mem_map.mp hy
      simpa [Function.comp] using htccPos
  set K := Nat.max (fracCeil mo)
    (fracCeil (Frac.mk pl.tcc.length tccCap) + fracCeil m2) with hKdef
  have hceilTcc : fracCeil (Frac.mk pl.tcc.length tccCap) =
      cdiv pl.tcc.length tccCap := rfl
  have h5K : fracCeil (Frac.mk pl.tcc.length tccCap) + fracCeil m2 ≤ K :=
    Nat.le_max_right _ _
  have h5K' : fracCeil mo ≤ K := Nat.le_max_left _ _
  clear_value K
  rw [hceilTcc] at h5K
  have hcTK : cdiv pl.tcc.length tccCap ≤ K := by omega
  refine ⟨?_, ?_, ?_⟩
  · -- ordinary blocks
    intro blk bucket cap hmem hcap
    have hcapPos : 0 < cap := config_pos hcfg hcap
    have hmap : passes.map (fun p => ordSliceOf p blk) =
        (List.range K).map (fun i => slice bucket i cap) := by
      have h2 : passes.map (fun p => ordSliceOf p blk) =
          (passes.map Pass.ordinary).map
            (fun o => ((o.filter (fun e => e.1 = blk)).map Prod.snd).flatten)
          := by
        rw [List.map_map]
        rfl
      rw [h2, hpass, emitLoop_map_ordinary, ← List.range_eq_range',
        List.map_map]
      refine List.map_congr_left ?_
      intro i _
      have h3 : (pl.ordinary.map
          (fun e => (e.1, e.2, (List.lookup e.1 cfg).getD 0))).map
            (fun e => (e.1, slice e.2.1 i e.2.2)) =
          pl.ordinary.map
            (fun e => (e.1, slice e.2 i ((List.lookup e.1 cfg).getD 0))) := by
        rw [List.map_map]
        exact List.map_congr_left (fun a _ => rfl)
      simp only [Function.comp]
      rw [h3, assoc_slice_extract hnod hmem
        (fun e => slice e.2 i ((List.lookup e.1 cfg).getD 0))]
      show slice bucket i ((List.lookup blk cfg).getD 0) = slice bucket i cap
      rw [hcap]
      rfl
    have hle : cdiv bucket.length cap ≤ K := by
      have hmm : cdiv bucket.length cap ∈ pl.ordinary.map
          (fun e => cdiv e.2.length ((List.lookup e.1 cfg).getD 0)) :=
        List.mem_map.mpr ⟨(blk, bucket), hmem, by rw [hcap]; rfl⟩
      have h4 := le_maxNat_of_mem hmm
      rw [← hmo'] at h4
      exact le_trans h4 h5K'
    obtain ⟨hflat, hcount⟩ := slices_roundtrip hcapPos hle
    refine ⟨by rw [hmap, hflat], ?_⟩
    have hcnt : passes.countP (fun p => !(ordSliceOf p blk).isEmpty) =
        ((List.range K).map (fun i => slice bucket i cap)).countP
          (fun l => !l.isEmpty) := by
      rw [← hmap]
      exact (List.countP_map (fun l : List String => !l.isEmpty)
        (fun p => ordSliceOf p blk) passes).symm
    rw [hcnt, List.countP_map]
    exact hcount
  · -- aggregated TCC bucket
    have hmap : passes.map Pass.tcc =
        (List.range K).map (fun i => slice pl.tcc i tccCap) := by
      rw [hpass, emitLoop_map_tcc, ← List.range_eq_range']
    obtain ⟨hflat, hcount⟩ := slices_roundtrip htccPos hcTK
    refine ⟨by rw [hmap, hflat], ?_⟩
    have hcnt : passes.countP (fun p => !(p.tcc).isEmpty) =
        ((List.range K).map (fun i => slice pl.tcc i tccCap)).countP
          (fun l => !l.isEmpty) := by
      rw [← hmap]
      exact (List.countP_map (fun l : List String => !l.isEmpty)
        Pass.tcc passes).symm
    rw [hcnt, List.countP_map]
    exact hcount
  · -- per-channel TCC sub-buckets
    intro ch hchlt
    have hbound : cdiv (chanBucket pl ch).length tccCap ≤
        K - cdiv pl.tcc.length tccCap := by
      have hmm : cdiv (chanBucket pl ch).length tccCap ∈
          (List.range channels).map
            (fun ch => cdiv (chanBucket pl ch).length tccCap) :=
        List.mem_map.mpr ⟨ch, List.mem_range.mpr hchlt, rfl⟩
      have h4 := le_maxNat_of_mem hmm
      rw [← hm2'] at h4
      omega
    have hNodupKeys : (((List.range channels).map
        (fun ch' => (natToStr ch', chanBucket pl ch'))).map Prod.fst).Nodup
        := by
      have hkeys : ((List.range channels).map
          (fun ch' => (natToStr ch', chanBucket pl ch'))).map Prod.fst =
          (List.range channels).map natToStr := by
        rw [List.map_map]
        exact List.map_congr_left (fun a _ => rfl)
      rw [hkeys]
      rcases channels_cases hcfg hch with rfl | rfl <;> decide
    have hmapCh : passes.map (fun p => chSliceOf p (natToStr ch)) =
        (List.range' 0 K).map (fun i =>
          if cdiv pl.tcc.length tccCap ≤ i then
            slice (chanBucket pl ch) (i - cdiv pl.tcc.length tccCap) tccCap
          else []) := by
      have h2 : passes.map (fun p => chSliceOf p (natToStr ch)) =
          (passes.map Pass.tccCh).map
            (fun tl => ((tl.filter (fun e => e.1 = natToStr ch)).map
              Prod.snd).flatten) := by
        rw [List.map_map]
        rfl
      rw [h2, hpass, emitLoop_map_tccCh _ _ _ _ htccPos K 0 0 (by omega),
        List.map_map]
      refine List.map_congr_left ?_
      intro i _
      by_cases hci : cdiv pl.tcc.length tccCap ≤ i
      · simp only [Function.comp, if_pos hci]
        rw [assoc_slice_extract hNodupKeys
          (List.mem_map.mpr ⟨ch, List.mem_range.mpr hchlt, rfl⟩)
          (fun e => slice e.2 (i - cdiv pl.tcc.length tccCap) tccCap)]
      · simp [Function.comp, if_neg hci]
    have hsplit : List.range' 0 K =
        List.range' 0 (cdiv pl.tcc.length tccCap) ++
          List.range' (cdiv pl.tcc.length tccCap)
            (K - cdiv pl.tcc.length tccCap) := by
      have h6 := List.range'_append 0 (cdiv pl.tcc.length tccCap)
        (K - cdiv pl.tcc.length tccCap) 1
      simp only [Nat.zero_add, Nat.one_mul] at h6
      rw [h6]
      congr 1
      omega
    have hpart1 : (List.range' 0 (cdiv pl.tcc.length tccCap)).map (fun i =>
        if cdiv pl.tcc.length tccCap ≤ i then
          slice (chanBucket pl ch) (i - cdiv pl.tcc.length tccCap) tccCap
        else []) =
        (List.range (cdiv pl.tcc.length tccCap)).map
          (fun _ => ([] : List String)) := by
      rw [List.range'_eq_map_range, List.map_map]
      refine List.map_congr_left ?_
      intro j hj
      simp only [Function.comp]
      rw [if_neg (by simp only [List.mem_range] at hj; omega)]
    have hpart2 : (List.range' (cdiv pl.tcc.length tccCap)
        (K - cdiv pl.tcc.length tccCap)).map (fun i =>
          if cdiv pl.tcc.length tccCap ≤ i then
            slice (chanBucket pl ch) (i - cdiv pl.tcc.length tccCap) tccCap
          else []) =
        (List.range (K - cdiv pl.tcc.length tccCap)).map
          (fun j => slice (chanBucket pl ch) j tccCap) := by
      rw [List.range'_eq_map_range, List.map_map]
      refine List.map_congr_left ?_
      intro j _
      simp only [Function.comp]
      rw [if_pos (by omega)]
      congr 1
      omega
    obtain ⟨hflat2, hcount2⟩ := slices_roundtrip htccPos hbound
    constructor
    · rw [hmapCh, hsplit, List.map_append, List.flatten_append, hpart1,
        hpart2, hflat2]
      simp
    · have hcnt : passes.countP
          (fun p => !(chSliceOf p (natToStr ch)).isEmpty) =
          ((List.range' 0 K).map (fun i =>
            if cdiv pl.tcc.length tccCap ≤ i then
              slice (chanBucket pl ch) (i - cdiv pl.tcc.length tccCap)
                tccCap
            else [])).countP (fun l => !l.isEmpty) := by
        rw [← hmapCh]
        exact (List.countP_map (fun l : List String => !l.isEmpty)
          (fun p => chSliceOf p (natToStr ch)) passes).symm
      rw [hcnt, hsplit, List.map_append, List.countP_append, hpart1,
        hpart2, List.countP_map, List.countP_map]
      have hz : (List.range (cdiv pl.tcc.length tccCap)).countP
          ((fun l : List String => !l.isEmpty) ∘ fun _ => []) = 0 := by
        rw [List.countP_eq_zero]
        intro a _
        simp [Function.comp]
      rw [hz, Nat.zero_add]
      exact hcount2

/-- Witness for `c2_roundtrip` at a concrete bucket structure. -/
theorem c2_roundtrip_witness :
    ([passW0, passW1].map (fun p => ordSliceOf p "SQ")).flatten =
        ["SQ_A", "SQ_B", "SQ_C"] ∧
      [passW0, passW1].countP (fun p => !(ordSliceOf p "SQ").isEmpty) = 1
    := by
  have h := (@c2_roundtrip plW "vega10" [passW0, passW1]
      ((lookupConfig "vega10").getD []) 4 16
      (by decide) (by decide) (by decide) (by decide) (by decide)).1
    "SQ" ["SQ_A", "SQ_B", "SQ_C"] 8 (by decide) (by decide)
  exact ⟨h.1, h.2.trans (by decide)⟩

/-- Witness for `c3_capacity` at a concrete bucket structure. -/
theorem c3_capacity_witness :
    passW1.tcc.length ≤ 4 ∧
      (("0", ["TCC_H[0]", "TCC_I[0]"]) : String × List String).2.length ≤ 4
    := by
  have h := @c3_capacity plW "vega10" [passW0, passW1]
      ((lookupConfig "vega10").getD []) 4 16
      (by decide) (by decide) (by decide) (by decide) passW1 (by decide)
  exact ⟨h.2.1, h.2.2 _ (by decide)⟩

/-! ## Sorting lemmas -/

theorem charListLe_total : ∀ (a b : List Char),
    charListLe a b = true ∨ charListLe b a = true
  | [], _ => Or.inl rfl
  | _ :: _, [] => Or.inr rfl
  | a :: as, b :: bs => by
    simp only [charListLe]
    by_cases h1 : a.toNat < b.toNat
    · left
      simp [h1]
    · by_cases h2 : b.toNat < a.toNat
      · right
        simp [h2]
      · simp only [h1, h2, if_false]
        exact charListLe_total as bs

theorem charListLe_trans : ∀ {a b c : List Char},
    charListLe a b = true → charListLe b c = true → charListLe a c = true
  | [], _, _, _, _ => rfl
  | _ :: _, [], _, h, _ => by simp [charListLe] at h
  | _ :: _, _ :: _, [], _, h2 => by simp [charListLe] at h2
  | a :: as, b :: bs, c :: cs, h1, h2 => by
    simp only [charListLe] at h1 h2 ⊢
    by_cases hab : a.toNat < b.toNat
    · by_cases hbc : b.toNat < c.toNat
      · rw [if_pos (by omega)]
      · by_cases hcb : c.toNat < b.toNat
        · rw [if_neg hbc, if_pos hcb] at h2
          exact (Bool.false_ne_true h2).elim
        · rw [if_pos (by omega)]
    · by_cases hba : b.toNat < a.toNat
      · rw [if_neg hab, if_pos hba] at h1
        exact (Bool.false_ne_true h1).elim
      · rw [if_neg hab, if_neg hba] at h1
        by_cases hbc : b.toNat < c.toNat
        · rw [if_pos (by omega)]
        · by_cases hcb : c.toNat < b.toNat
          · rw [if_neg hbc, if_pos hcb] at h2
            exact (Bool.false_ne_true h2).elim
          · rw [if_neg hbc, if_neg hcb] at h2
            rw [if_neg (by omega), if_neg (by omega)]
            exact charListLe_trans h1 h2

theorem strLe_total (a b : String) : strLe a b = true ∨ strLe b a = true :=
  charListLe_total a.data b.data

theorem strLe_trans {a b c : String} (h1 : strLe a b = true)
    (h2 : strLe b c = true) : strLe a c = true :=
  charListLe_trans h1 h2

theorem insort_perm (x : String) :
    ∀ (l : List String), (insortStr x l).Perm (x :: l)
  | [] => List.Perm.refl _
  | y :: ys => by
    simp only [insortStr]
    split
    · exact List.Perm.refl _
    · exact ((insort_perm x ys).cons y).trans (List.Perm.swap x y ys)

theorem isort_perm : ∀ (l : List String), (isortStr l).Perm l
  | [] => List.Perm.refl _
  | x :: xs => (insort_perm x (isortStr xs)).trans ((isort_perm xs).cons x)

theorem insort_sorted {x : String} :
    ∀ {l : List String},
      List.Pairwise (fun a b => strLe a b = true) l →
      List.Pairwise (fun a b => strLe a b = true) (insortStr x l)
  | [], _ => by simp [insortStr]
  | y :: ys, h => by
    simp only [insortStr]
    split
    · next hxy =>
      refine List.Pairwise.cons ?_ h
      intro z hz
      rcases List.mem_cons.mp hz with rfl | hz
      · exact hxy
      · exact strLe_trans hxy (List.rel_of_pairwise_cons h hz)
    · next hxy =>
      have hyx : strLe y x = true := by
        rcases strLe_total x y with h1 | h1
        · exact absurd h1 hxy
        · exact h1
      refine List.Pairwise.cons ?_ (insort_sorted (List.Pairwise.of_cons h))
      intro z hz
      have hz' : z ∈ x :: ys := ((insort_perm x ys).mem_iff).mp hz
      rcases List.mem_cons.mp hz' with rfl | hzys
      · exact hyx
      · exact List.rel_of_pairwise_cons h hzys

theorem isort_sorted : ∀ (l : List String),
    List.Pairwise (fun a b => strLe a b = true) (isortStr l)
  | [] => List.Pairwise.nil
  | _ :: xs => insort_sorted (isort_sorted xs)

/-! ## Deduplication lemmas -/

theorem mem_dedupFrom {a : String} :
    ∀ {l acc : List String}, a ∈ dedupFrom acc l ↔ a ∈ acc ∨ a ∈ l
  | [], acc => by simp [dedupFrom]
  | c :: cs, acc => by
    simp only [dedupFrom]
    rw [mem_dedupFrom]
    unfold appendUnique
    split
    · next hc =>
      simp only [List.mem_cons]
      constructor
      · rintro (h | h)
        · exact Or.inl h
        · exact Or.inr (Or.inr h)
      · rintro (h | rfl | h)
        · exact Or.inl h
        · exact Or.inl hc
        · exact Or.inr h
    · simp only [List.mem_append, List.mem_singleton, List.mem_cons]
      tauto

theorem dedupFrom_nodup :
    ∀ {l acc : List String}, acc.Nodup → (dedupFrom acc l).Nodup
  | [], acc, h => h
  | c :: cs, acc, h => by
    simp only [dedupFrom]
    refine dedupFrom_nodup ?_
    unfold appendUnique
    split
    · exact h
    · next hc =>
      simp [List.nodup_append, h, hc]

theorem dedupFirst_nodup (l : List String) : (dedupFirst l).Nodup :=
  dedupFrom_nodup List.nodup_nil

theorem mem_dedupFirst {a : String} {l : List String} :
    a ∈ dedupFirst l ↔ a ∈ l := by
  rw [dedupFirst, mem_dedupFrom]
  simp

theorem dedupFromOpt_some {b : List String} :
    ∀ {ts : List String}, dedupFromOpt (some b) ts = some (dedupFrom b ts)
  | [] => rfl
  | _ :: _ => by
    simp only [dedupFromOpt, dedupFrom, Option.getD_some]
    exact dedupFromOpt_some

theorem updateAssoc_some {k : String} {f : List String → List String} :
    ∀ {l l' : List (String × List String)}, updateAssoc k f l = some l' →
      (List.lookup k l' = (List.lookup k l).map f) ∧
        (∀ k', k' ≠ k → List.lookup k' l' = List.lookup k' l) ∧
        (List.lookup k l).isSome
  | [], _, h => by simp [updateAssoc] at h
  | (k1, v) :: rest, l', h => by
    simp only [updateAssoc] at h
    by_cases hk : k1 = k
    · rw [if_pos hk] at h
      subst hk
      injection h with h
      subst h
      refine ⟨?_, ?_, ?_⟩
      · simp [List.lookup_cons]
      · intro k' hk'
        simp [List.lookup_cons, beq_eq_false_iff_ne.mpr hk']
      · simp [List.lookup_cons]
    · rw [if_neg hk] at h
      cases hrec : updateAssoc k f rest with
      | none => rw [hrec] at h; simp at h
      | some r' =>
        rw [hrec] at h
        simp only [Option.map_some', Option.some.injEq] at h
        subst h
        obtain ⟨h1, h2, h3⟩ := updateAssoc_some hrec
        have hkk1 : (k == k1) = false :=
          beq_eq_false_iff_ne.mpr (fun he => hk he.symm)
        refine ⟨?_, ?_, ?_⟩
        · simp [List.lookup_cons, hkk1, h1]
        · intro k' hk'
          by_cases hk1' : k' = k1
          · subst hk1'
            simp [List.lookup_cons]
          · simp [List.lookup_cons, beq_eq_false_iff_ne.mpr hk1',
              h2 k' hk']
        · simp [List.lookup_cons, hkk1, h3]

theorem updateAssoc_none {k : String} {f : List String → List String} :
    ∀ {l : List (String × List String)}, updateAssoc k f l = none →
      List.lookup k l = none
  | [], _ => rfl
  | (k1, v) :: rest, h => by
    simp only [updateAssoc] at h
    by_cases hk : k1 = k
    · rw [if_pos hk] at h
      simp at h
    · rw [if_neg hk] at h
      have hkk1 : (k == k1) = false :=
        beq_eq_false_iff_ne.mpr (fun he => hk he.symm)
      cases hrec : updateAssoc k f rest with
      | none =>
        simp [List.lookup_cons, hkk1, updateAssoc_none hrec]
      | some r' => rw [hrec] at h; simp at h

/-- One-token step: how `insertCounter` changes each of the three bucket
views. -/
theorem insertCounter_views {pmc pmc' : PmcList} {c : String}
    (h : insertCounter pmc c = some pmc') :
    (∀ blk, blk ≠ "TCC" →
      List.lookup blk pmc'.ordinary =
        (if ipBlockOf c = blk then
          (List.lookup blk pmc.ordinary).map (appendUnique c)
        else List.lookup blk pmc.ordinary)) ∧
    pmc'.tcc = (if ipBlockOf c = "TCC" ∧ tccChannel c = none then
      appendUnique c pmc.tcc else pmc.tcc) ∧
    (∀ ch, List.lookup ch pmc'.tcc2 =
      (if ipBlockOf c = "TCC" ∧ tccChannel c = some ch then
        some (appendUnique c ((List.lookup ch pmc.tcc2).getD []))
      else List.lookup ch pmc.tcc2)) := by
  unfold insertCounter at h
  by_cases hip : ipBlockOf c ≠ "TCC"
  · rw [if_pos hip] at h
    cases hupd : updateAssoc (ipBlockOf c) (appendUnique c) pmc.ordinary with
    | none => rw [hupd] at h; simp at h
    | some o =>
      rw [hupd] at h
      simp only [Option.map_some', Option.some.injEq] at h
      subst h
      obtain ⟨h1, h2, h3⟩ := updateAssoc_some hupd
      refine ⟨?_, ?_, ?_⟩
      · intro blk _
        by_cases hblk : ipBlockOf c = blk
        · rw [if_pos hblk, ← hblk]
          exact h1
        · rw [if_neg hblk]
          exact h2 blk (fun he => hblk he.symm)
      · rw [if_neg (fun hc => hip hc.1)]
      · intro ch
        rw [if_neg (fun hc => hip hc.1)]
  · rw [if_neg hip] at h
    rw [not_not] at hip
    cases hchan : tccChannel c with
    | none =>
      rw [hchan] at h
      have hC : some (PmcList.mk pmc.ordinary (appendUnique c pmc.tcc)
          pmc.tcc2) = some pmc' := h
      injection hC with hC
      subst hC
      refine ⟨?_, ?_, ?_⟩
      · intro blk hblk
        rw [if_neg (fun he => hblk (he.symm.trans hip))]
      · rw [if_pos ⟨hip, rfl⟩]
      · intro ch
        rw [if_neg (fun hc => by cases hc.2)]
    | some ch0 =>
      rw [hchan] at h
      have hB : (match updateAssoc ch0 (appendUnique c) pmc.tcc2 with
          | some t2 => some (PmcList.mk pmc.ordinary pmc.tcc t2)
          | none => some (PmcList.mk pmc.ordinary pmc.tcc
              (pmc.tcc2 ++ [(ch0, [c])]))) = some pmc' := h
      cases hupd : updateAssoc ch0 (appendUnique c) pmc.tcc2 with
      | none =>
        rw [hupd] at hB
        have hC : some (PmcList.mk pmc.ordinary pmc.tcc
            (pmc.tcc2 ++ [(ch0, [c])])) = some pmc' := hB
        injection hC with hC
        subst hC
        have hnone := updateAssoc_none hupd
        refine ⟨?_, ?_, ?_⟩
        · intro blk hblk
          rw [if_neg (fun he => hblk (he.symm.trans hip))]
        · rw [if_neg (fun hc => by cases hc.2)]
        · intro ch
          by_cases hch : ch0 = ch
          · subst hch
            rw [if_pos ⟨hip, rfl⟩]
            show List.lookup ch0 (pmc.tcc2 ++ [(ch0, [c])]) = _
            rw [List.lookup_append, hnone]
            simp [List.lookup_cons, appendUnique]
          · rw [if_neg (fun hc => hch (Option.some.inj hc.2))]
            show List.lookup ch (pmc.tcc2 ++ [(ch0, [c])]) = _
            rw [List.lookup_append]
            simp [List.lookup_cons, beq_eq_false_iff_ne.mpr
              (fun he => hch he.symm), hnone]
      | some t2 =>
        rw [hupd] at hB
        have hC : some (PmcList.mk pmc.ordinary pmc.tcc t2) = some pmc' :=
          hB
        injection hC with hC
        subst hC
        obtain ⟨h1, h2, h3⟩ := updateAssoc_some hupd
        refine ⟨?_, ?_, ?_⟩
        · intro blk hblk
          rw [if_neg (fun he => hblk (he.symm.trans hip))]
        · rw [if_neg (fun hc => by cases hc.2)]
        · intro ch
          by_cases hch : ch0 = ch
          · subst hch
            rw [if_pos ⟨hip, rfl⟩]
            show List.lookup ch0 t2 = _
            rw [h1]
            cases hl : List.lookup ch0 pmc.tcc2 with
            | none =>
              rw [hl] at h3
              simp at h3
            | some v => simp
          · rw [if_neg (fun hc => hch (Option.some.inj hc.2))]
            exact h2 ch (fun he => hch he.symm)

theorem views_refl (pmc : PmcList) : BucketViews pmc [] pmc := by
  refine ⟨?_, rfl, fun ch => rfl⟩
  intro blk _
  cases List.lookup blk pmc.ordinary <;> rfl

theorem dedupFrom_append (b : List String) :
    ∀ (l1 l2 : List String),
      dedupFrom b (l1 ++ l2) = dedupFrom (dedupFrom b l1) l2 := by
  intro l1
  induction l1 generalizing b with
  | nil => intro l2; rfl
  | cons c cs ih => intro l2; exact ih (appendUnique c b) l2

theorem dedupFromOpt_append (o : Option (List String)) :
    ∀ (l1 l2 : List String),
      dedupFromOpt o (l1 ++ l2) = dedupFromOpt (dedupFromOpt o l1) l2 := by
  intro l1
  induction l1 generalizing o with
  | nil => intro l2; rfl
  | cons c cs ih => intro l2; exact ih (some (appendUnique c (o.getD []))) l2

theorem views_comp {base mid out : PmcList} {ts us : List String}
    (h1 : BucketViews base ts mid) (h2 : BucketViews mid us out) :
    BucketViews base (ts ++ us) out := by
  obtain ⟨ho1, ht1, hc1⟩ := h1
  obtain ⟨ho2, ht2, hc2⟩ := h2
  refine ⟨?_, ?_, ?_⟩
  · intro blk hblk
    rw [ho2 blk hblk, ho1 blk hblk, Option.map_map, List.filter_append]
    congr 1
    funext b
    simp only [Function.comp]
    rw [dedupFrom_append]
  · rw [ht2, ht1, List.filter_append, dedupFrom_append]
  · intro ch
    rw [hc2 ch, hc1 ch, List.filter_append, dedupFromOpt_append]

theorem insert_views {pmc pmc' : PmcList} {c : String}
    (h : insertCounter pmc c = some pmc') : BucketViews pmc [c] pmc' := by
  obtain ⟨ho, ht, hc⟩ := insertCounter_views h
  refine ⟨?_, ?_, ?_⟩
  · intro blk hblk
    rw [ho blk hblk]
    simp only [List.filter_cons, List.filter_nil]
    by_cases hip : ipBlockOf c = blk
    · rw [if_pos hip, if_pos (by simp [hip])]
      cases List.lookup blk pmc.ordinary <;> rfl
    · rw [if_neg hip, if_neg (by simp [hip])]
      cases List.lookup blk pmc.ordinary <;> rfl
  · rw [ht]
    simp only [List.filter_cons, List.filter_nil]
    by_cases hip : ipBlockOf c = "TCC" ∧ tccChannel c = none
    · rw [if_pos hip, if_pos (by simp [hip.1, hip.2])]
      rfl
    · rw [if_neg hip, if_neg (by
        simp only [Bool.and_eq_true, beq_iff_eq]
        intro hcc
        exact hip ⟨hcc.1, by simpa using hcc.2⟩)]
      rfl
  · intro ch
    rw [hc ch]
    simp only [List.filter_cons, List.filter_nil]
    by_cases hip : ipBlockOf c = "TCC" ∧ tccChannel c = some ch
    · rw [if_pos hip, if_pos (by simp [hip.1, hip.2])]
      rfl
    · rw [if_neg hip, if_neg (by
        simp only [Bool.and_eq_true, beq_iff_eq]
        intro hcc
        exact hip ⟨hcc.1, by simpa using hcc.2⟩)]
      rfl

theorem foldl_insert_views :
    ∀ {ts : List String} {pmc pmc' : PmcList},
      List.foldlM insertCounter pmc ts = some pmc' →
      BucketViews pmc ts pmc'
  | [], pmc, pmc', h => by
    simp only [List.foldlM_nil, Option.pure_def, Option.some.injEq] at h
    subst h
    exact views_refl pmc
  | c :: cs, pmc, pmc', h => by
    simp only [List.foldlM_cons] at h
    cases hstep : insertCounter pmc c with
    | none => rw [hstep] at h; simp at h
    | some p1 =>
      rw [hstep] at h
      simp only [Option.bind_eq_bind, Option.some_bind] at h
      exact views_comp (insert_views hstep) (foldl_insert_views h)

theorem processLine_views {st st' : CoalesceState} {line : String}
    (h : processLine st line = some st') :
    BucketViews st.pmc (lineTokens line) st'.pmc := by
  unfold processLine at h
  unfold lineTokens
  by_cases hempty : stripComment line = ""
  · rw [if_pos hempty] at h ⊢
    injection h with h
    subst h
    exact views_refl st.pmc
  · rw [if_neg hempty] at h ⊢
    cases hrest : pmcRest (stripComment line) with
    | none =>
      rw [hrest] at h
      injection h with h
      subst h
      exact views_refl st.pmc
    | some rest =>
      rw [hrest] at h
      replace h : (if accumToken ∈ pySplit rest then
          (match levelNameOf (pySplit rest) with
            | some lc => some (CoalesceState.mk st.pmc
                (st.levelFiles ++ [(lc, stripComment line)]))
            | none => none)
          else
            (List.foldlM insertCounter st.pmc (pySplit rest)).map
              (fun pmc => CoalesceState.mk pmc st.levelFiles)) = some st' :=
        h
      show BucketViews st.pmc
        (if accumToken ∈ pySplit rest then [] else pySplit rest) st'.pmc
      by_cases haccum : accumToken ∈ pySplit rest
      · rw [if_pos haccum] at h ⊢
        cases hname : levelNameOf (pySplit rest) with
        | none => rw [hname] at h; simp at h
        | some lc =>
          rw [hname] at h
          injection h with h
          rw [← h]
          exact views_refl st.pmc
      · rw [if_neg haccum] at h ⊢
        cases hfold : List.foldlM insertCounter st.pmc (pySplit rest) with
        | none => rw [hfold] at h; simp at h
        | some pmc1 =>
          rw [hfold] at h
          simp only [Option.map_some', Option.some.injEq] at h
          rw [← h]
          exact foldl_insert_views hfold

theorem foldl_lines_views :
    ∀ {lines : List String} {st st' : CoalesceState},
      List.foldlM processLine st lines = some st' →
      BucketViews st.pmc (lines.flatMap lineTokens) st'.pmc
  | [], st, st', h => by
    simp only [List.foldlM_nil, Option.pure_def, Option.some.injEq] at h
    subst h
    exact views_refl st.pmc
  | line :: rest, st, st', h => by
    simp only [List.foldlM_cons] at h
    cases hstep : processLine st line with
    | none => rw [hstep] at h; simp at h
    | some st1 =>
      rw [hstep] at h
      simp only [Option.bind_eq_bind, Option.some_bind] at h
      exact views_comp (processLine_views hstep) (foldl_lines_views h)

theorem foldl_sources_views :
    ∀ {sources : List (List String)} {st st' : CoalesceState},
      List.foldlM (fun st lines => List.foldlM processLine st lines) st
          sources = some st' →
      BucketViews st.pmc (sourceTokens sources) st'.pmc
  | [], st, st', h => by
    simp only [List.foldlM_nil, Option.pure_def, Option.some.injEq] at h
    subst h
    exact views_refl st.pmc
  | lines :: rest, st, st', h => by
    simp only [List.foldlM_cons] at h
    cases hstep : List.foldlM processLine st lines with
    | none => rw [hstep] at h; simp at h
    | some st1 =>
      rw [hstep] at h
      simp only [Option.bind_eq_bind, Option.some_bind] at h
      exact views_comp (foldl_lines_views hstep) (foldl_sources_views h)

theorem lookup_const_nil (k : String) :
    ∀ (keys : List String),
      List.lookup k (keys.map (fun b => (b, ([] : List String)))) =
        if k ∈ keys then some [] else none
  | [] => by simp
  | b :: bs => by
    simp only [List.map_cons, List.lookup_cons]
    by_cases hk : k = b
    · subst hk
      simp
    · rw [show (k == b) = false from beq_eq_false_iff_ne.mpr hk,
        lookup_const_nil k bs]
      by_cases hks : k ∈ bs
      · rw [if_pos hks, if_pos (by simp [hks])]
      · rw [if_neg hks, if_neg (by simp [hks, hk])]

theorem sortChannels_fold :
    ∀ {ks : List Nat} {t2 t2' : List (String × List String)},
      (ks.map natToStr).Nodup →
      List.foldlM (fun acc ch => updateAssoc (natToStr ch) isortStr acc)
          t2 ks = some t2' →
      ∀ ch, List.lookup ch t2' =
        if ch ∈ ks.map natToStr then (List.lookup ch t2).map isortStr
        else List.lookup ch t2
  | [], t2, t2', _, h, ch => by
    simp only [List.foldlM_nil, Option.pure_def, Option.some.injEq] at h
    subst h
    simp
  | k :: ks, t2, t2', hnod, h, ch => by
    simp only [List.foldlM_cons] at h
    cases hstep : updateAssoc (natToStr k) isortStr t2 with
    | none => rw [hstep] at h; simp at h
    | some mid =>
      rw [hstep] at h
      simp only [Option.bind_eq_bind, Option.some_bind] at h
      obtain ⟨h1, h2, _⟩ := updateAssoc_some hstep
      simp only [List.map_cons, List.nodup_cons] at hnod
      have hrec := sortChannels_fold hnod.2 h ch
      by_cases hch : ch = natToStr k
      · subst hch
        rw [hrec, if_neg hnod.1, h1, if_pos (by simp)]
      · rw [hrec]
        by_cases hks : ch ∈ ks.map natToStr
        · rw [if_pos hks, if_pos (by simp [hks]), h2 ch hch]
        · rw [if_neg hks, if_neg (by simp [hks, hch]), h2 ch hch]

/-- Characterization of `perfmon_coalesce`: every ordinary bucket, the
aggregated TCC bucket, and every canonical per-channel TCC bucket of the
result is the first-occurrence deduplication of the source tokens
classified into it; the canonical per-channel buckets are additionally
sorted. -/
theorem coalesce_views {sources : List (List String)} {soc : String}
    {out : CoalesceState} {cfg : List (String × Nat)} {channels : Nat}
    (h : perfmon_coalesce sources soc = some out)
    (hcfg : lookupConfig soc = some cfg)
    (hch : List.lookup "TCC_channels" cfg = some channels) :
    (∀ blk, blk ∈ ordinaryBlockNames →
      List.lookup blk out.pmc.ordinary = some (dedupFirst
        ((sourceTokens sources).filter (fun c => ipBlockOf c == blk)))) ∧
    out.pmc.tcc = dedupFirst ((sourceTokens sources).filter
      (fun c => ipBlockOf c == "TCC" && tccChannel c == none)) ∧
    (∀ k, k < channels →
      List.lookup (natToStr k) out.pmc.tcc2 = some (isortStr (dedupFirst
        ((sourceTokens sources).filter (fun c =>
          ipBlockOf c == "TCC" && tccChannel c == some (natToStr k))))))
    := by
  rw [perfmon_coalesce, hcfg] at h
  simp only [Option.bind_eq_bind, Option.pure_def] at h
  rw [Option.some_bind, hch, Option.some_bind] at h
  cases hfold : List.foldlM
      (fun st lines => List.foldlM processLine st lines)
      (CoalesceState.mk (initPmcList channels) []) sources with
  | none => rw [hfold, Option.none_bind] at h; exact absurd h (by simp)
  | some st =>
    rw [hfold, Option.some_bind] at h
    cases hsort : sortChannels channels st.pmc.tcc2 with
    | none => rw [hsort, Option.none_bind] at h; exact absurd h (by simp)
    | some t2 =>
      rw [hsort, Option.some_bind] at h
      injection h with h
      subst h
      obtain ⟨hord, htcc, hchv⟩ := foldl_sources_views hfold
      refine ⟨?_, ?_, ?_⟩
      · intro blk hmemB
        have hne : blk ≠ "TCC" := fun he => by
          subst he
          exact absurd hmemB (by decide)
        rw [hord blk hne]
        show (List.lookup blk (initPmcList channels).ordinary).map _ = _
        rw [show (initPmcList channels).ordinary =
            ordinaryBlockNames.map (fun b => (b, ([] : List String)))
            from rfl,
          lookup_const_nil, if_pos hmemB, Option.map_some']
        rfl
      · exact htcc
      · intro k hk
        have hnodks : ((List.range channels).map natToStr).Nodup := by
          rcases channels_cases hcfg hch with rfl | rfl <;> decide
        have hsorted := sortChannels_fold hnodks hsort (natToStr k)
        show List.lookup (natToStr k) t2 = some (isortStr (dedupFirst
          ((sourceTokens sources).filter (fun c =>
            ipBlockOf c == "TCC" && tccChannel c == some (natToStr k)))))
        rw [hsorted, if_pos
          (List.mem_map.mpr ⟨k, List.mem_range.mpr hk, rfl⟩),
          hchv (natToStr k)]
        have hinit : List.lookup (natToStr k)
            (CoalesceState.mk (initPmcList channels) []).pmc.tcc2 =
            some [] := by
          show List.lookup (natToStr k) (initPmcList channels).tcc2 =
            some []
          rw [show (initPmcList channels).tcc2 =
              ((List.range channels).map natToStr).map
                (fun b => (b, ([] : List String))) from by
            rw [List.map_map]
            rfl]
          rw [lookup_const_nil, if_pos
            (List.mem_map.mpr ⟨k, List.mem_range.mpr hk, rfl⟩)]
        rw [hinit, dedupFromOpt_some, Option.map_some']
        rfl

/-- **C5 counterexample.** The claim states that a counter occurring in
two sources is present exactly once in its bucket *in order of first
appearance*.  For per-channel TCC sub-buckets the coalescer sorts after
ingesting, so `TCC_B[0]` — seen first — ends up *after* `TCC_A[0]`:
the bucket is not in first-appearance order. -/
theorem c5_counterexample :
    (perfmon_coalesce sources5 "mi200").map
        (fun out => (List.lookup "0" out.pmc.tcc2).getD []) =
      some ["TCC_A[0]", "TCC_B[0]"] ∧
    dedupFirst ((sourceTokens sources5).filter
      (fun c => ipBlockOf c == "TCC" && tccChannel c == some "0")) =
      ["TCC_B[0]", "TCC_A[0]"] ∧
    (["TCC_A[0]", "TCC_B[0]"] : List String) ≠ ["TCC_B[0]", "TCC_A[0]"]
    := ⟨by decide, by decide, by decide⟩

/-- **C5 (amended).** After coalescing, a counter occurring in several
sources with identical name is present exactly once in its bucket;
ordinary and aggregated-TCC buckets list counters in order of first
appearance, while per-channel sub-buckets are first-appearance
deduplicated and then sorted lexicographically; the same base name with
two distinct bracketed channel indices yields two distinct entries in
the two distinct per-channel sub-buckets. -/
theorem c5_dedup {sources : List (List String)} {soc : String}
    {out : CoalesceState} {cfg : List (String × Nat)} {channels : Nat}
    (h : perfmon_coalesce sources soc = some out)
    (hcfg : lookupConfig soc = some cfg)
    (hch : List.lookup "TCC_channels" cfg = some channels) :
    (∀ blk, blk ∈ ordinaryBlockNames →
      List.lookup blk out.pmc.ordinary = some (dedupFirst
        ((sourceTokens sources).filter (fun c => ipBlockOf c == blk)))) ∧
    out.pmc.tcc = dedupFirst ((sourceTokens sources).filter
      (fun c => ipBlockOf c == "TCC" && tccChannel c == none)) ∧
    (∀ k, k < channels →
      List.lookup (natToStr k) out.pmc.tcc2 = some (isortStr (dedupFirst
        ((sourceTokens sources).filter (fun c =>
          ipBlockOf c == "TCC" && tccChannel c == some (natToStr k)))))) ∧
    (∀ blk bucket, List.lookup blk out.pmc.ordinary = some bucket →
      blk ∈ ordinaryBlockNames →
      bucket.Nodup ∧ ∀ c, c ∈ bucket ↔
        c ∈ (sourceTokens sources).filter (fun c => ipBlockOf c == blk)) ∧
    (∀ k bucket, k < channels →
      List.lookup (natToStr k) out.pmc.tcc2 = some bucket →
      bucket.Nodup ∧ ∀ c, c ∈ bucket ↔
        c ∈ (sourceTokens sources).filter (fun c =>
          ipBlockOf c == "TCC" && tccChannel c == some (natToStr k))) := by
  obtain ⟨ha, hb, hc⟩ := coalesce_views h hcfg hch
  refine ⟨ha, hb, hc, ?_, ?_⟩
  · intro blk bucket hl hmem
    rw [ha blk hmem] at hl
    injection hl with hl
    subst hl
    exact ⟨dedupFirst_nodup _, fun c => mem_dedupFirst⟩
  · intro k bucket hk hl
    rw [hc k hk] at hl
    injection hl with hl
    subst hl
    refine ⟨((isort_perm _).nodup_iff).mpr (dedupFirst_nodup _), ?_⟩
    intro c
    exact ((isort_perm _).mem_iff).trans mem_dedupFirst

/-- Witness for `c5_dedup` at a concrete pair of sources. -/
theorem c5_dedup_witness :
    (perfmon_coalesce sources5 "mi200").map
        (fun o => List.lookup "0" o.pmc.tcc2) =
      some (some (isortStr (dedupFirst ((sourceTokens sources5).filter
        (fun c => ipBlockOf c == "TCC" &&
          tccChannel c == some (natToStr 0)))))) := by
  cases hco : perfmon_coalesce sources5 "mi200" with
  | none => exact absurd hco (by decide)
  | some out =>
    rw [Option.map_some']
    exact congrArg some
      ((@c5_dedup sources5 "mi200" out ((lookupConfig "mi200").getD []) 32
          hco (by decide) (by decide)).2.2.1 0 (by decide))

/-- **C6 counterexample.** With one counter on every `vega10` channel,
every per-channel sub-bucket has a counter at slice offset 0, but the
counter (base) name at that offset differs between channel 0
(`TCC_A`) and channel 1 (`TCC_B`): sorting each sub-bucket does not make
names at a fixed offset identical across channels. -/
theorem c6_counterexample :
    (perfmon_coalesce [[line6]] "vega10").map (fun out =>
      ((List.range 16).all (fun k =>
        !((List.lookup (natToStr k) out.pmc.tcc2).getD []).isEmpty),
       tccBase (((List.lookup "0" out.pmc.tcc2).getD []).headD ""),
       tccBase (((List.lookup "1" out.pmc.tcc2).getD []).headD ""))) =
      some (true, "TCC_A", "TCC_B") ∧
    ("TCC_A" : String) ≠ "TCC_B" := ⟨by decide, by decide⟩

/-- **C6 (amended).** After the coalescer has ingested all sources,
every canonical per-channel sub-bucket of the TCC block is sorted
lexicographically by counter name (code-point order). -/
theorem c6_sorted {sources : List (List String)} {soc : String}
    {out : CoalesceState} {cfg : List (String × Nat)} {channels : Nat}
    (h : perfmon_coalesce sources soc = some out)
    (hcfg : lookupConfig soc = some cfg)
    (hch : List.lookup "TCC_channels" cfg = some channels) :
    ∀ k, k < channels → ∀ bucket,
      List.lookup (natToStr k) out.pmc.tcc2 = some bucket →
      List.Pairwise (fun a b => strLe a b = true) bucket := by
  intro k hk bucket hl
  obtain ⟨-, -, hc⟩ := coalesce_views h hcfg hch
  rw [hc k hk] at hl
  injection hl with hl
  subst hl
  exact isort_sorted _

/-- Witness for `c6_sorted` at a concrete pair of sources. -/
theorem c6_sorted_witness :
    List.Pairwise (fun a b => strLe a b = true)
      ["TCC_A[0]", "TCC_B[0]"] := by
  cases hco : perfmon_coalesce sources5 "mi200" with
  | none => exact absurd hco (by decide)
  | some out =>
    have hl : List.lookup "0" out.pmc.tcc2 =
        some ["TCC_A[0]", "TCC_B[0]"] := by
      have hd : (perfmon_coalesce sources5 "mi200").map
          (fun o => List.lookup "0" o.pmc.tcc2) =
          some (some ["TCC_A[0]", "TCC_B[0]"]) := by decide
      rw [hco, Option.map_some'] at hd
      exact Option.some.inj hd
    exact @c6_sorted sources5 "mi200" out ((lookupConfig "mi200").getD []) 32
      hco (by decide) (by decide) 0 (by decide) _ hl

/-- A negative-one Python index selects the last element. -/
theorem pyGet_neg_one (l : List String) (h : l ≠ []) :
    pyGet l (-1) = some (l.getLast h) := by
  have hlen : 0 < l.length := List.length_pos.mpr h
  simp only [pyGet]
  rw [if_pos (by omega : ((-1 : Int) < 0)), if_pos (by omega)]
  rw [show ((l.length : Int) + -1).toNat = l.length - 1 by omega]
  rw [List.getElem?_eq_getElem (by omega)]
  congr 1
  exact (List.getLast_eq_getElem l h).symm

/-- In-range Python indexing (negative or not) succeeds. -/
theorem pyGet_isSome {l : List String} {i : Int}
    (hlo : -(l.length : Int) ≤ i) (hhi : i < (l.length : Int)) :
    (pyGet l i).isSome = true := by
  simp only [pyGet]
  by_cases hneg : i < 0
  · rw [if_pos hneg, if_pos (by omega)]
    rw [List.getElem?_eq_getElem (by omega)]
    rfl
  · rw [if_neg hneg, if_pos (by omega)]
    rw [List.getElem?_eq_getElem (by omega)]
    rfl

/-- When the accumulator token occurs among the counters, the level
counter name lookup never fails: `counters.index(...)` is in range and
`counters[index - 1]` is a valid Python index even at index 0 (where it
wraps to the last token). -/
theorem levelNameOf_isSome {counters : List String}
    (h : accumToken ∈ counters) : (levelNameOf counters).isSome = true := by
  have hidx : List.indexOf accumToken counters < counters.length :=
    List.indexOf_lt_length.mpr h
  have hpos : 0 < counters.length :=
    List.length_pos.mpr (List.ne_nil_of_mem h)
  exact pyGet_isSome (by omega) (by omega)

/-- A line whose counters contain the accumulator token is diverted in
full: the buckets are untouched and `(level_name, stripped_text)` is
appended to the level-file list. -/
theorem processLine_level {st : CoalesceState} {line rest lc : String}
    (hne : stripComment line ≠ "")
    (hrest : pmcRest (stripComment line) = some rest)
    (haccum : accumToken ∈ pySplit rest)
    (hlc : levelNameOf (pySplit rest) = some lc) :
    processLine st line = some (CoalesceState.mk st.pmc
      (st.levelFiles ++ [(lc, stripComment line)])) := by
  simp only [processLine]
  rw [if_neg hne, hrest]
  show (if accumToken ∈ pySplit rest then
      match levelNameOf (pySplit rest) with
      | some lc => some { st with levelFiles := st.levelFiles ++ [(lc, stripComment line)] }
      | none => none
    else
      (List.foldlM insertCounter st.pmc (pySplit rest)).map
        (fun pmc => { st with pmc := pmc })) =
    some (CoalesceState.mk st.pmc (st.levelFiles ++ [(lc, stripComment line)]))
  rw [if_pos haccum, hlc]

/-- **C7 counterexample.** The claim states that on a level line only the
accumulator token is diverted while the other tokens still reach their
buckets.  In fact the whole line is diverted: here `SQ_WAVES` is on the
level line, yet the `SQ` bucket stays empty and the full stripped line is
recorded as the level file text. -/
theorem c7_counterexample :
    "SQ_WAVES" ∈ pySplit ((pmcRest (stripComment line7)).getD "") ∧
    (perfmon_coalesce [[line7]] "mi200").map (fun out =>
      ((List.lookup "SQ" out.pmc.ordinary).getD ["?"], out.levelFiles)) =
      some ([], [("SQ_LEVEL_WAVES", line7)]) := ⟨by decide, by decide⟩

/-- **C7 (amended).** A non-empty `pmc:` line containing
`SQ_ACCUM_PREV_HIRES` is diverted in its entirety: no token of the line
enters any bucket; the level counter name (the token preceding the
accumulator) paired with the whole stripped line text is appended to
the level-file list. -/
theorem c7_level_line {st : CoalesceState} {line rest : String}
    (hne : stripComment line ≠ "")
    (hrest : pmcRest (stripComment line) = some rest)
    (haccum : accumToken ∈ pySplit rest) :
    ∃ lc, levelNameOf (pySplit rest) = some lc ∧
      processLine st line = some (CoalesceState.mk st.pmc
        (st.levelFiles ++ [(lc, stripComment line)])) := by
  obtain ⟨lc, hlc⟩ := Option.isSome_iff_exists.mp (levelNameOf_isSome haccum)
  exact ⟨lc, hlc, processLine_level hne hrest haccum hlc⟩

/-- Witness for `c7_level_line` at a concrete level line. -/
theorem c7_level_line_witness :
    processLine (CoalesceState.mk (initPmcList 16) [])
        "pmc: SQ_LEV SQ_ACCUM_PREV_HIRES" =
      some (CoalesceState.mk (initPmcList 16)
        [("SQ_LEV", "pmc: SQ_LEV SQ_ACCUM_PREV_HIRES")]) := by
  obtain ⟨lc, hlc, hpl⟩ :=
    @c7_level_line (CoalesceState.mk (initPmcList 16) [])
      "pmc: SQ_LEV SQ_ACCUM_PREV_HIRES" " SQ_LEV SQ_ACCUM_PREV_HIRES"
      (by decide) (by decide) (by decide)
  have hlc' : levelNameOf (pySplit " SQ_LEV SQ_ACCUM_PREV_HIRES") =
      some "SQ_LEV" := by decide
  have heq : lc = "SQ_LEV" := Option.some.inj (hlc.symm.trans hlc')
  subst heq
  exact hpl.trans (congrArg some (by decide))

/-- **C8 counterexample.** The claim states that a `pmc:` line with no
counter tokens raises a parse error.  In fact such a line is silently
skipped: the marker matches, the token list is empty, and coalescing
succeeds. -/
theorem c8_counterexample :
    (pmcRest (stripComment "pmc:")).isSome = true ∧
    pySplit ((pmcRest (stripComment "pmc:")).getD "x") = [] ∧
    (perfmon_coalesce [["pmc:"]] "mi200").isSome = true :=
  ⟨by decide, by decide, by decide⟩

/-- **C8 (amended).** A line that is empty after comment stripping, that
lacks the `pmc:` marker, or whose `pmc:` marker is followed by no counter
tokens, is skipped without error: processing returns the state
unchanged. -/
theorem c8_skip {st : CoalesceState} {line : String}
    (h : stripComment line = "" ∨ pmcRest (stripComment line) = none ∨
      ∃ rest, pmcRest (stripComment line) = some rest ∧ pySplit rest = []) :
    processLine st line = some st := by
  simp only [processLine]
  rcases h with h | h | ⟨rest, hrest, hsplit⟩
  · rw [if_pos h]
  · by_cases he : stripComment line = ""
    · rw [if_pos he]
    · rw [if_neg he, h]
  · by_cases he : stripComment line = ""
    · rw [if_pos he]
    · rw [if_neg he, hrest]
      show (if accumToken ∈ pySplit rest then
          match levelNameOf (pySplit rest) with
          | some lc => some { st with levelFiles := st.levelFiles ++ [(lc, stripComment line)] }
          | none => none
        else
          (List.foldlM insertCounter st.pmc (pySplit rest)).map
            (fun pmc => { st with pmc := pmc })) = some st
      rw [hsplit, if_neg (by simp)]
      rfl

/-- Witness for `c8_skip`: the bare marker line is skipped. -/
theorem c8_skip_witness :
    processLine (CoalesceState.mk (initPmcList 16) []) "pmc:" =
      some (CoalesceState.mk (initPmcList 16) []) :=
  c8_skip (Or.inr (Or.inr ⟨"", by decide, by decide⟩))

/-- **C10.** When `SQ_ACCUM_PREV_HIRES` is the *first* token of the line,
`counters.index(...) - 1` is `-1`, which under Python indexing selects the
*last* token of the line as the level counter name; the line is then
diverted as usual. -/
theorem c10_accum_first {st : CoalesceState} {line rest : String}
    {rest' : List String}
    (hne : stripComment line ≠ "")
    (hrest : pmcRest (stripComment line) = some rest)
    (hsplit : pySplit rest = accumToken :: rest') :
    levelNameOf (pySplit rest) =
      some ((accumToken :: rest').getLast (List.cons_ne_nil _ _)) ∧
    processLine st line = some (CoalesceState.mk st.pmc
      (st.levelFiles ++
        [((accumToken :: rest').getLast (List.cons_ne_nil _ _),
          stripComment line)])) := by
  have haccum : accumToken ∈ pySplit rest := by
    rw [hsplit]
    exact List.mem_cons_self _ _
  have hlev : levelNameOf (pySplit rest) =
      some ((accumToken :: rest').getLast (List.cons_ne_nil _ _)) := by
    rw [hsplit]
    unfold levelNameOf
    rw [List.indexOf_cons_self]
    show pyGet (accumToken :: rest') (-1) = _
    exact pyGet_neg_one _ (List.cons_ne_nil _ _)
  exact ⟨hlev, processLine_level hne hrest haccum hlev⟩

/-- Witness for `c10_accum_first`: accumulator first, last token `SQ_X`
becomes the level counter name. -/
theorem c10_accum_first_witness :
    processLine (CoalesceState.mk (initPmcList 16) [])
        "pmc: SQ_ACCUM_PREV_HIRES SQ_X" =
      some (CoalesceState.mk (initPmcList 16)
        [("SQ_X", "pmc: SQ_ACCUM_PREV_HIRES SQ_X")]) := by
  have h := @c10_accum_first (CoalesceState.mk (initPmcList 16) [])
      "pmc: SQ_ACCUM_PREV_HIRES SQ_X" " SQ_ACCUM_PREV_HIRES SQ_X" ["SQ_X"]
      (by decide) (by decide) (by decide)
  exact h.2.trans (congrArg some (by decide))

/-- The `do`-chain of the recombiner, written with explicit binds. -/
theorem join_prof_model_eq (tables : List Table) (jt : String) :
    join_prof_model tables jt =
      (joinAll jt tables).bind (fun df =>
        (familyWarnings df).bind (fun ws =>
          (checkNames (dropTs (dropBoring df))).bind (fun df2 =>
            some (dropKeyCol (meanStep df2), ws)))) := rfl

/-- A name that heads no entry of any row heads no output column. -/
theorem notMem_tableCols {t : Table} {k : String}
    (h : ∀ r ∈ t, ∀ e ∈ r, e.1 ≠ k) : k ∉ tableCols t := by
  unfold tableCols
  cases t with
  | nil => simp
  | cons r ts =>
    simp only [List.headD_cons, List.mem_map]
    rintro ⟨e, he, hek⟩
    exact h r (List.mem_cons_self _ _) e he hek

/-- The family-warning fold only appends: the accumulator survives. -/
theorem famWarn_mono (t : Table) :
    ∀ (l : List (String × String)) (acc ws : List String),
      List.foldlM (fun ws fam => do
          let ok ← test_df_column_equality t (famCols t fam.2)
          pure (if ok then ws else ws ++ [warnMsg fam.1]))
        acc l = some ws → ∀ x ∈ acc, x ∈ ws
  | [], acc, ws, h, x, hx => by
      injection h with h
      exact h ▸ hx
  | fam :: l, acc, ws, h, x, hx => by
      rw [List.foldlM_cons] at h
      simp only [Option.bind_eq_bind, Option.pure_def] at h
      cases ht : test_df_column_equality t (famCols t fam.2) with
      | none =>
        rw [ht, Option.none_bind, Option.none_bind] at h
        exact Option.noConfusion h
      | some ok =>
        rw [ht, Option.some_bind, Option.some_bind] at h
        cases ok with
        | true =>
          rw [if_pos rfl] at h
          exact famWarn_mono t l acc ws h x hx
        | false =>
          rw [if_neg (by simp)] at h
          exact famWarn_mono t l _ ws h x (List.mem_append_left _ hx)

/-- If some family of the fold tests unequal, its warning is collected. -/
theorem famWarn_mem (t : Table) :
    ∀ (l : List (String × String)) (acc ws : List String)
      (fam : String × String), fam ∈ l →
      test_df_column_equality t (famCols t fam.2) = some false →
      List.foldlM (fun ws fam => do
          let ok ← test_df_column_equality t (famCols t fam.2)
          pure (if ok then ws else ws ++ [warnMsg fam.1]))
        acc l = some ws →
      warnMsg fam.1 ∈ ws
  | [], _, _, _, hmem, _, _ => absurd hmem (List.not_mem_nil _)
  | f :: l, acc, ws, fam, hmem, htest, h => by
      rw [List.foldlM_cons] at h
      simp only [Option.bind_eq_bind, Option.pure_def] at h
      rcases List.mem_cons.mp hmem with heq | hmem'
      · subst heq
        rw [htest, Option.some_bind, Option.some_bind] at h
        rw [if_neg (by simp)] at h
        exact famWarn_mono t l _ ws h _
          (List.mem_append_right _ (List.mem_cons_self _ _))
      · cases ht : test_df_column_equality t (famCols t f.2) with
        | none =>
          rw [ht, Option.none_bind, Option.none_bind] at h
          exact Option.noConfusion h
        | some ok =>
          rw [ht, Option.some_bind, Option.some_bind] at h
          cases ok with
          | true =>
            rw [if_pos rfl] at h
            exact famWarn_mem t l acc ws fam hmem' htest h
          | false =>
            rw [if_neg (by simp)] at h
            exact famWarn_mem t l _ ws fam hmem' htest h

/-- When every left row's key matches exactly one right row, the inner
join has exactly one merged row per left row. -/
theorem mergeInner_count (t1 t2 : Table) (i : Nat)
    (h : ∀ r1 ∈ t1, t2.countP (fun r2 => rowKey r2 == rowKey r1) = 1) :
    (mergeInner t1 t2 i).length = t1.length := by
  simp only [mergeInner]
  generalize tableCols t1 = L
  induction t1 with
  | nil => rfl
  | cons r t ih =>
    rw [List.flatMap_cons, List.length_append, List.length_map,
      ← List.countP_eq_length_filter, h r (List.mem_cons_self _ _),
      ih (fun r1 hr1 => h r1 (List.mem_cons.mpr (Or.inr hr1))),
      List.length_cons]
    omega

/-- **C4.** After the key-based join, if two copies of the kernel-name
column disagree on any row of the trimmed frame, recombination aborts
fatally (the model yields `none`: nothing is written); when the model
succeeds, all kernel-name copies agreed and the duplicate kernel-name
columns are absent from the output. -/
theorem c4_name_check (tables : List Table) (join_type : String) :
    (∀ df ws k0 rest,
      joinAll join_type tables = some df →
      familyWarnings df = some ws →
      namekeysOf (dropTs (dropBoring df)) = k0 :: rest →
      ¬(rest.all (fun k => (dropTs (dropBoring df)).all
          (fun r => rowGet r k == rowGet r k0)) = true) →
      join_prof_model tables join_type = none) ∧
    (∀ out ws,
      join_prof_model tables join_type = some (out, ws) →
      ∃ df k0 rest,
        joinAll join_type tables = some df ∧
        namekeysOf (dropTs (dropBoring df)) = k0 :: rest ∧
        rest.all (fun k => (dropTs (dropBoring df)).all
          (fun r => rowGet r k == rowGet r k0)) = true ∧
        ∀ k ∈ rest, k ∉ tableCols out) := by
  constructor
  · intro df ws k0 rest hjoin hws hnk hdis
    have hcn : checkNames (dropTs (dropBoring df)) = none := by
      unfold checkNames
      rw [hnk]
      show (if rest.all (fun k => (dropTs (dropBoring df)).all
          (fun r => rowGet r k == rowGet r k0)) then
          some ((dropTs (dropBoring df)).map
            (fun r => r.filter (fun e => !(rest.contains e.1))))
        else none) = none
      rw [if_neg hdis]
    rw [join_prof_model_eq, hjoin, Option.some_bind, hws, Option.some_bind,
      hcn, Option.none_bind]
  · intro out ws hmodel
    rw [join_prof_model_eq] at hmodel
    cases hj : joinAll join_type tables with
    | none =>
      rw [hj, Option.none_bind] at hmodel
      exact Option.noConfusion hmodel
    | some df =>
      rw [hj, Option.some_bind] at hmodel
      cases hw : familyWarnings df with
      | none =>
        rw [hw, Option.none_bind] at hmodel
        exact Option.noConfusion hmodel
      | some ws' =>
        rw [hw, Option.some_bind] at hmodel
        cases hcn : checkNames (dropTs (dropBoring df)) with
        | none =>
          rw [hcn, Option.none_bind] at hmodel
          exact Option.noConfusion hmodel
        | some df2 =>
          rw [hcn, Option.some_bind] at hmodel
          injection hmodel with hmodel
          have hout : dropKeyCol (meanStep df2) = out :=
            congrArg Prod.fst hmodel
          unfold checkNames at hcn
          cases hnk : namekeysOf (dropTs (dropBoring df)) with
          | nil =>
            rw [hnk] at hcn
            exact Option.noConfusion hcn
          | cons k0 rest =>
            rw [hnk] at hcn
            have hcn' : (if rest.all (fun k => (dropTs (dropBoring df)).all
                (fun r => rowGet r k == rowGet r k0)) then
                some ((dropTs (dropBoring df)).map
                  (fun r => r.filter (fun e => !(rest.contains e.1))))
              else none) = some df2 := hcn
            by_cases hall : rest.all (fun k => (dropTs (dropBoring df)).all
                (fun r => rowGet r k == rowGet r k0)) = true
            · rw [if_pos hall] at hcn'
              injection hcn' with hdf2
              refine ⟨df, k0, rest, rfl, hnk, hall, ?_⟩
              intro k hk
              have hkc : strContains k "KernelName" = true := by
                have hm : k ∈ namekeysOf (dropTs (dropBoring df)) := by
                  rw [hnk]
                  exact List.mem_cons_of_mem _ hk
                unfold namekeysOf at hm
                exact (List.mem_filter.mp hm).2
              rw [← hout, ← hdf2]
              apply notMem_tableCols
              intro r hr e he
              simp only [dropKeyCol, List.mem_map] at hr
              obtain ⟨r1, hr1, hfe⟩ := hr
              subst hfe
              rw [List.mem_filter] at he
              obtain ⟨he1, -⟩ := he
              simp only [meanStep, List.mem_map] at hr1
              obtain ⟨r2, hr2, hf2⟩ := hr1
              subst hf2
              rcases List.mem_append.mp he1 with hL | hR
              · have he2 : e ∈ r2 := (List.mem_filter.mp hL).1
                obtain ⟨r3, hr3, hf3⟩ := hr2
                subst hf3
                have hnc := (List.mem_filter.mp he2).2
                intro heq
                have hc : rest.contains k = true := List.elem_iff.mpr hk
                rw [heq, hc] at hnc
                exact Bool.noConfusion hnc
              · intro heq
                simp only [List.mem_cons, List.not_mem_nil, or_false] at hR
                rcases hR with h1 | h1
                · have he1' : e.1 = "BeginNs" := by rw [h1]
                  rw [he1'] at heq
                  rw [← heq] at hkc
                  exact absurd hkc (by decide)
                · have he1' : e.1 = "EndNs" := by rw [h1]
                  rw [he1'] at heq
                  rw [← heq] at hkc
                  exact absurd hkc (by decide)
            · rw [if_neg hall] at hcn'
              exact Option.noConfusion hcn'

/-- Witness for `c4_name_check`: the two rows above join on an equal
grid key with differing kernel names, so nothing is written. -/
theorem c4_name_check_witness :
    join_prof_model [t4a, t4b] "grid" = none := by
  cases hj : joinAll "grid" [t4a, t4b] with
  | none => exact absurd hj (by decide)
  | some df =>
    have h1 : (joinAll "grid" [t4a, t4b]).map
        (fun d => ((familyWarnings d).isSome,
          namekeysOf (dropTs (dropBoring d)),
          ["KernelName_1"].all (fun k => (dropTs (dropBoring d)).all
            (fun r => rowGet r k == rowGet r "KernelName")))) =
        some (true, ["KernelName", "KernelName_1"], false) := by decide
    rw [hj, Option.map_some'] at h1
    injection h1 with h1
    injection h1 with h1a h1bc
    injection h1bc with h1b h1c
    obtain ⟨ws, hws⟩ := Option.isSome_iff_exists.mp h1a
    have hdis : ¬(["KernelName_1"].all (fun k => (dropTs (dropBoring df)).all
        (fun r => rowGet r k == rowGet r "KernelName")) = true) := by
      intro hcon
      rw [h1c] at hcon
      exact Bool.noConfusion hcon
    exact (c4_name_check [t4a, t4b] "grid").1 df ws "KernelName"
      ["KernelName_1"] hj hws h1b hdis

/-- **C9.** When the keyed pass tables join one-to-one but disagree on a
declared-invariant column family, the recombiner collects the family's
data-quality warning, does not abort (the model succeeds, with the
warning in its output), and the joined frame — hence the final output —
has exactly one merged row per left-table row/key. -/
theorem c9_family_warning {ta tb ka kb df df2 : Table} {jt : String}
    {fam : String × String} {ws : List String}
    (hka : addKeys jt ta = some ka)
    (hkb : addKeys jt tb = some kb)
    (hdf : df = mergeInner ka kb 1)
    (hfam : fam ∈ duplicate_cols)
    (htest : test_df_column_equality df (famCols df fam.2) = some false)
    (hws : familyWarnings df = some ws)
    (hcn : checkNames (dropTs (dropBoring df)) = some df2)
    (huniq : ∀ r1 ∈ ka, kb.countP (fun r2 => rowKey r2 == rowKey r1) = 1) :
    join_prof_model [ta, tb] jt = some (dropKeyCol (meanStep df2), ws) ∧
    warnMsg fam.1 ∈ ws ∧
    df.length = ka.length ∧
    (dropKeyCol (meanStep df2)).length = ka.length := by
  have hjoin : joinAll jt [ta, tb] = some df := by
    simp only [joinAll, joinAllAux, Option.bind_eq_bind]
    rw [hka, Option.some_bind, hkb, Option.some_bind, hdf]
  have hws' : List.foldlM (fun ws fam => do
      let ok ← test_df_column_equality df (famCols df fam.2)
      pure (if ok then ws else ws ++ [warnMsg fam.1]))
    [] duplicate_cols = some ws := hws
  have hlen2 : df2.length = df.length := by
    unfold checkNames at hcn
    cases hnk : namekeysOf (dropTs (dropBoring df)) with
    | nil =>
      rw [hnk] at hcn
      exact Option.noConfusion hcn
    | cons k0 rest =>
      rw [hnk] at hcn
      have hcn' : (if rest.all (fun k => (dropTs (dropBoring df)).all
          (fun r => rowGet r k == rowGet r k0)) then
          some ((dropTs (dropBoring df)).map
            (fun r => r.filter (fun e => !(rest.contains e.1))))
        else none) = some df2 := hcn
      by_cases hall : rest.all (fun k => (dropTs (dropBoring df)).all
          (fun r => rowGet r k == rowGet r k0)) = true
      · rw [if_pos hall] at hcn'
        injection hcn' with hcn'
        rw [← hcn']
        simp [dropTs, dropBoring]
      · rw [if_neg hall] at hcn'
        exact Option.noConfusion hcn'
  refine ⟨?_, famWarn_mem df duplicate_cols [] ws fam hfam htest hws', ?_, ?_⟩
  · rw [join_prof_model_eq, hjoin, Option.some_bind, hws, Option.some_bind,
      hcn, Option.some_bind]
  · rw [hdf]
    exact mergeInner_count ka kb 1 huniq
  · simp only [dropKeyCol, meanStep, List.length_map]
    rw [hlen2, hdf]
    exact mergeInner_count ka kb 1 huniq

/-- Witness for `c9_family_warning` at the concrete pass pair. -/
theorem c9_family_warning_witness :
    join_prof_model [t9a, t9b] "kernel" =
      some (dropKeyCol (meanStep df9'), ws9) ∧
    warnMsg "grd" ∈ ws9 ∧
    df9.length = ka9.length ∧
    (dropKeyCol (meanStep df9')).length = ka9.length :=
  @c9_family_warning t9a t9b ka9 kb9 df9 df9' "kernel" ("grd", "grd") ws9
    (by decide) (by decide) rfl (by decide) (by decide) (by decide) (by decide)
    (by decide)

end Perfagg
